import Mathlib

set_option maxHeartbeats 1000000
set_option maxRecDepth 4000

/-!
Shallow embedding of the translation engine in src/translation.rs of simcrat.

External collaborators (the LLM client, the compiler wrapper, the renderer)
are modelled as a record of pure oracle functions; a Rust panic (failed
assert! or unwrap) is modelled as the error case of an exception monad;
loops whose termination depends only on oracle behaviour carry a fuel
parameter and behave as if the loop exited when fuel runs out, except for
the outer tier-3 loop, whose fuel exhaustion is observable (it returns
none) so that its termination bound can be stated and proved.
-/

/-- Outcome monad: Except.error () models a process abort (a failed assert
or unwrap in the Rust source); Except.ok is normal control flow. -/
abbrev Res (α : Type) : Type := Except Unit α

/-- Abort outcome, the image of a Rust panic or failed assertion. -/
def resAbort {α : Type} : Res α := Except.error ()

instance {ε α : Type} [DecidableEq ε] [DecidableEq α] : DecidableEq (Except ε α)
  | .ok x, .ok y =>
    if h : x = y then .isTrue (by rw [h]) else .isFalse (by simp [h])
  | .ok _, .error _ => .isFalse (by simp)
  | .error _, .ok _ => .isFalse (by simp)
  | .error e, .error f =>
    if h : e = f then .isTrue (by rw [h]) else .isFalse (by simp [h])

/-- Join a list of strings with newline separators, as Vec::join("\n") and
the intersperse in FixContext::uses_str do. -/
def joinLines : List String → String
  | [] => ""
  | [s] => s
  | s :: t :: rest => s ++ "\n" ++ joinLines (t :: rest)

/-- Comma-space join used when rendering a derive attribute. -/
def joinCommaSep : List String → String
  | [] => ""
  | [s] => s
  | s :: t :: rest => s ++ ", " ++ joinCommaSep (t :: rest)

/-- Number of lines of a string, as s.split('\n').count() computes it:
one more than the number of newline characters. -/
def numLines (s : String) : Nat := s.data.count '\n' + 1

/-- Lexicographic strict order on character lists by scalar value, the
order Rust's Ord for String induces (UTF-8 byte order coincides with
scalar-value order). -/
def charsLt : List Char → List Char → Bool
  | [], [] => false
  | [], _ :: _ => true
  | _ :: _, [] => false
  | a :: as, b :: bs => if a < b then true else if a = b then charsLt as bs else false

/-- The string order underlying every BTree container of strings. -/
def strLtB (a b : String) : Bool := charsLt a.data b.data

/-- Propositional form of the string order. -/
def strLt (a b : String) : Prop := strLtB a b = true

instance : DecidableRel strLt := fun a b => by
  unfold strLt
  infer_instance

/-- Ordered-set insertion on strings, the model of BTreeSet::insert:
keeps the list sorted and duplicate-free. -/
def insS (s : String) : List String → List String
  | [] => [s]
  | t :: ts => if strLtB s t then s :: t :: ts else if s = t then t :: ts else t :: insS s ts

/-- Collect a list of strings into an ordered duplicate-free list, the model
of .collect::<BTreeSet<_>>(). -/
def sortDedup (l : List String) : List String := l.foldl (fun acc s => insS s acc) []

/-- Rust str::trim on a string, dropping leading and trailing whitespace. -/
def trimS (s : String) : String :=
  ⟨((s.data.dropWhile Char.isWhitespace).reverse.dropWhile Char.isWhitespace).reverse⟩

/-- Strip a literal string from the front, as str::strip_prefix does:
some rest when the pattern is a prefix, none otherwise. -/
def dropPre (p s : String) : Option String :=
  if p.data.isPrefixOf s.data then some ⟨s.data.drop p.data.length⟩ else none

/-- Remove every occurrence of the two-character pattern consisting of a
dash followed by a greater-than sign, as str::replace removes return
arrows in the signature well-formedness check. -/
def removeArrows : List Char → List Char
  | [] => []
  | '-' :: '>' :: rest => removeArrows rest
  | ch :: rest => ch :: removeArrows rest

/-- The index just past the last occurrence of a double colon, and the text
after it with a trailing semicolon stripped: the model of get_name inside
FixContext::add_uses (rfind of a double colon then strip_suffix of the
semicolon). -/
def useTailName (s : String) : Option String :=
  let rec lastCC : List Char → Option Nat
    | [] => none
    | ':' :: ':' :: rest =>
      match lastCC rest with
      | some i => some (i + 2)
      | none => some 0
    | _ :: rest =>
      match lastCC rest with
      | some i => some (i + 1)
      | none => none
  match lastCC s.data with
  | none => none
  | some i =>
    let rest := s.data.drop (i + 2)
    match rest.getLast? with
    | some ';' => some ⟨rest.dropLast⟩
    | _ => none

/-- The sort of a C nominal type (typedef, struct or union). -/
inductive TypeSort
  | typedef
  | strct
  | union
deriving DecidableEq

/-- Identity of a C nominal type (c_parser::CustomType). -/
structure CustomType where
  name : String
  sort : TypeSort
deriving DecidableEq

/-- Type payload of a parsed item: its sort and its mutable derive set
(a BTreeSet of trait names, modelled as an ordered list). -/
structure TypeInfo where
  sort : TypeSort
  derives : List String
deriving DecidableEq

/-- Modelled from the spec: compiler.rs (defining FnInfo) is not under src/;
the spec says FnInfo carries a structural signature shape used as a
de-duplication key, with a parameter list the arity filter measures. -/
structure SigTy where
  params : List String
  ret : String
deriving DecidableEq

/-- Function payload of a parsed item: the signature shape used as dedup key
and the printable normalized signature. -/
structure FnInfo where
  normalizedSignatureTy : SigTy
  normalizedSignature : String
deriving DecidableEq

/-- The sort of one top-level parsed declaration (compiler::ItemSort). -/
inductive ItemSort
  | type (info : TypeInfo)
  | var
  | func (info : FnInfo)
  | use
deriving DecidableEq

/-- One top-level declaration produced by the target-language parser
(compiler::ParsedItem): a name, a sort, and its source text. -/
structure ParsedItem where
  name : String
  sort : ItemSort
  code : String
deriving DecidableEq

/-- One compiler diagnostic: a line number and a message. -/
structure CompilerError where
  line : Nat
  message : String
deriving DecidableEq

/-- Result of one type check (compiler::TypeCheckingResult): diagnostics,
compiler-suggested import lines, and machine-applicable suggestions
(opaque payloads applied by the rustfix oracle). -/
structure TypeCheckingResult where
  errors : List CompilerError
  uses : List String
  suggestions : List String
deriving DecidableEq

/-- Modelled from the spec: compiler.rs (defining TypeCheckingResult::passed)
is not under src/; the spec ties a passing check to the absence of residual
diagnostics (the tier loops stop exactly when no error remains). -/
def TypeCheckingResult.passed (r : TypeCheckingResult) : Bool := r.errors.isEmpty

/-- The external world: the target-language compiler wrapper, the rustfix
suggestion applier and the LLM fix endpoint, as pure oracle functions.
Option models both a transport failure (LLM) and an unparseable reply. -/
structure Oracle where
  typeCheck : String → Option TypeCheckingResult
  parse : String → Option (List ParsedItem)
  applySuggestions : String → List String → Option String
  llmFix : String → String → Option String
  checkDerive : String → List (String × List String)

/-- Modelled from the spec: the renderer serializing a parsed item
(get_code in compiler.rs) is external to src/; a type item renders its
mutable derive set as an attribute ahead of its text, any other item
renders its text unchanged. -/
def ParsedItem.getCode (i : ParsedItem) : String :=
  match i.sort with
  | .type t =>
    (if t.derives.isEmpty then "" else "#[derive(" ++ joinCommaSep t.derives ++ ")]\n") ++ i.code
  | _ => i.code

/-- Translation of one SCC member (TranslationResult). -/
structure TranslationResult where
  items : List ParsedItem
  uses : List String
  errors : Nat
  copied : Bool
  signatureOnly : Bool
deriving DecidableEq

/-- TranslationResult::code: the newline join of the items' rendered code. -/
def TranslationResult.code (r : TranslationResult) : String :=
  joinLines (r.items.map ParsedItem.getCode)

/-- The repair-loop state (FixContext): the current use lines (an ordered
set), the immutable checking prefix, the candidate code, the protected
names (an ordered set) and the latest type-checking result. -/
structure FixContext where
  uses : List String
  pfx : String
  code : String
  names : List String
  result : Option TypeCheckingResult
deriving DecidableEq

/-- FixContext::uses_str: the use lines interspersed with newlines. -/
def FixContext.usesStr (c : FixContext) : String := joinLines c.uses

/-- FixContext::uses_and_prefix: uses_str directly concatenated with the
prefix (no separator, exactly as the Rust format string does). -/
def FixContext.usesAndPrefix (c : FixContext) : String := c.usesStr ++ c.pfx

/-- FixContext::code(): the full program checked by the compiler, the
uses-and-prefix region, a newline, then the candidate code. -/
def FixContext.fullCode (c : FixContext) : String := c.usesAndPrefix ++ "\n" ++ c.code

/-- FixContext::prefix_lines: the line count of the uses-and-prefix region. -/
def FixContext.prefixLines (c : FixContext) : Nat := numLines c.usesAndPrefix

/-- FixContext::check: run the compiler on the full code, store the result,
and assert that every diagnostic lies strictly below the prefix region;
a diagnostic in the prefix region aborts the program. -/
def FixContext.check (O : Oracle) (c : FixContext) : Res FixContext :=
  match O.typeCheck c.fullCode with
  | none => .ok { c with result := none }
  | some res =>
    if ∀ e ∈ res.errors, c.prefixLines < e.line then .ok { c with result := some res }
    else resAbort

/-- FixContext::update: replace the candidate code and re-check. -/
def FixContext.update (O : Oracle) (c : FixContext) (code : String) : Res FixContext :=
  FixContext.check O { c with code := code }

/-- FixContext::update_whole: strip the uses-and-prefix region and the
following newline off a whole-program string (either unwrap aborts on
failure), then update with the remainder. -/
def FixContext.updateWhole (O : Oracle) (c : FixContext) (whole : String) : Res FixContext :=
  match dropPre c.usesAndPrefix whole with
  | none => resAbort
  | some rest =>
    match rest.data with
    | ch :: r => if ch = '\n' then FixContext.update O c ⟨r⟩ else resAbort
    | [] => resAbort

/-- FixContext::new: build the context and run the initial check. -/
def FixContext.new (O : Oracle) (uses : List String) (pfx code : String)
    (names : List String) : Res FixContext :=
  FixContext.check O { uses := uses, pfx := pfx, code := code, names := names, result := none }

/-- The body of the insertion loop in FixContext::add_uses: skip glob and
brace-grouped suggestions, abort (unwrap) on a suggestion without a tail
name, skip tail names an existing import already provides, and insert the
rest, recording whether the set grew. -/
def addUseStep (names : List String) (acc : List String × Bool) (u : String) :
    Res (List String × Bool) :=
  if u.data.getLast? = some '*' || u.data.contains '\x7b' then Except.ok acc
  else
    match useTailName u with
    | none => resAbort
    | some n =>
      if n ∈ names then Except.ok acc
      else if u ∈ acc.1 then Except.ok acc
      else Except.ok (insS u acc.1, true)

/-- FixContext::add_uses: take the compiler-suggested import lines out of the
stored result, and insert each one that is not a glob, not brace-grouped,
and whose tail identifier is not already provided by an existing import
(get_name of a malformed suggestion unwraps to an abort); re-check when the
use set grew. Returns the updated context and whether it grew. -/
def FixContext.addUses (O : Oracle) (c : FixContext) : Res (FixContext × Bool) :=
  match c.result with
  | none => resAbort
  | some res =>
    let taken := res.uses
    let c1 : FixContext := { c with result := some { res with uses := [] } }
    let names := c1.uses.filterMap useTailName
    do
      let acc ← taken.foldlM (addUseStep names) (c1.uses, false)
      let c2 : FixContext := { c1 with uses := acc.1 }
      if acc.2 then do
        let c3 ← FixContext.check O c2
        Except.ok (c3, true)
      else Except.ok (c2, false)

/-- Translator::fix_by_suggestions: while the stored result offers
machine-applicable suggestions, apply them to the whole program (unwrap of
the rustfix result aborts on failure) and update; fuel bounds the loop and
fuel exhaustion behaves as loop exit. -/
def fixBySuggestions (O : Oracle) : Nat → FixContext → Res FixContext
  | 0, c => .ok c
  | fuel + 1, c =>
    match c.result with
    | none => .ok c
    | some res =>
      if res.suggestions = [] then .ok c
      else
        match O.applySuggestions c.fullCode res.suggestions with
        | none => resAbort
        | some whole => do
          let c1 ← FixContext.updateWhole O c whole
          fixBySuggestions O fuel c1

/-- The import-augmentation loop inside Translator::fix_by_compiler: while
the stored result suggests imports, add them; stop when the use set does
not grow; otherwise re-run suggestion application and repeat. -/
def fixByCompilerLoop (O : Oracle) (iF : Nat) : Nat → FixContext → Res FixContext
  | 0, c => .ok c
  | fuel + 1, c =>
    match c.result with
    | none => .ok c
    | some res =>
      if res.uses = [] then .ok c
      else do
        let p ← FixContext.addUses O c
        if p.2 then do
          let c1 ← fixBySuggestions O iF p.1
          fixByCompilerLoop O iF fuel c1
        else .ok p.1

/-- Translator::fix_by_compiler: tier 1 (suggestions) then tier 2 (import
augmentation), both bounded by the inner fuel iF. -/
def fixByCompiler (O : Oracle) (iF : Nat) (c : FixContext) : Res FixContext := do
  let c1 ← fixBySuggestions O iF c
  fixByCompilerLoop O iF iF c1

/-- Residual error count of a context: the length of the stored result's
error list, zero when no result is stored. -/
def errCount (c : FixContext) : Nat :=
  match c.result with
  | some r => r.errors.length
  | none => 0

/-- The distinct not-yet-failed error messages of one result, in BTreeSet
order, as the msgs set at the top of the tier-3 loop body. -/
def msgsOf (res : TypeCheckingResult) (failed : List String) : List String :=
  sortDedup ((res.errors.map (fun e => e.message)).filter (fun m => decide (m ∉ failed)))

/-- One per-message fix attempt inside the tier-3 loop: ask the LLM for a
fix of the code under repair, parse it, retain only items whose names lie
in the protected set, drop the reply when the retained count differs from
the protected count or the rendered fix equals the current code; otherwise
update a clone of the context with the fix and re-run tiers 1 and 2.
Except.ok none is a dropped candidate; an abort propagates. -/
def fixAttempt (O : Oracle) (iF : Nat) (c : FixContext) (msg : String) : Res (Option FixContext) :=
  match O.llmFix c.code msg with
  | none => .ok none
  | some fx =>
    match O.parse fx with
    | none => .ok none
    | some items =>
      let fixedItems := items.filter (fun i => decide (i.name ∈ c.names))
      if c.names.length ≠ fixedItems.length then .ok none
      else
        let fxCode := TranslationResult.code
          { items := fixedItems, uses := [], errors := 0, copied := false, signatureOnly := false }
        if c.code = fxCode then .ok none
        else do
          let c1 ← FixContext.update O c fxCode
          let c2 ← fixByCompiler O iF c1
          Except.ok (some c2)

/-- Residual error count a candidate is charged with when compared to the
current count: the length of its stored result's errors, or the current
count when the candidate or its result is absent. -/
def newErrorsOf (current : Nat) : Option FixContext → Nat
  | some c =>
    match c.result with
    | some r => r.errors.length
    | none => current
  | none => current

/-- The tagging of the joined per-message attempts at the middle of one
tier-3 iteration: each candidate zipped back with its message and charged
with its residual count. -/
def taggedOf (current : Nat) (results : List (Option FixContext)) (msgs : List String) :
    List (Option FixContext × Nat × String) :=
  (results.zip msgs).map (fun p => (p.1, newErrorsOf current p.1, p.2))

/-- First minimal element by a natural-number key, as Iterator::min_by_key
returns the first of equally minimal elements. -/
def minByKey {β : Type} (key : β → Nat) (l : List β) : Option β :=
  l.foldl (fun acc x =>
    match acc with
    | none => some x
    | some y => if key x < key y then some x else some y) none

/-- Result of one outer tier-3 iteration: continue with a new context and
failed set, or stop (the Rust break) with the final failed set. -/
inductive StepRes
  | cont (c : FixContext) (failed : List String)
  | stop (failed : List String)
deriving DecidableEq

/-- One outer iteration of the tier-3 loop in Translator::fix_by_llm:
attempt every distinct not-yet-failed message, tag each candidate with its
residual count, split into candidates that strictly decreased the count and
the rest, mark the rest failed, and either continue with the minimal
success (unwrap of an absent context aborts) or stop. -/
def fixByLlmStep (O : Oracle) (iF : Nat) (c : FixContext) (failed : List String) : Res StepRes :=
  match c.result with
  | none => .ok (.stop failed)
  | some res =>
    let current := res.errors.length
    let msgs := msgsOf res failed
    do
      let results ← msgs.mapM (fixAttempt O iF c)
      let tagged := taggedOf current results msgs
      let succ := tagged.filter (fun t => decide (t.2.1 < current))
      let fails := tagged.filter (fun t => decide (¬ t.2.1 < current))
      let failed1 := fails.foldl (fun acc t => insS t.2.2 acc) failed
      match minByKey (fun t => t.2.1) succ with
      | some (some nc, _, _) => Except.ok (.cont nc failed1)
      | some (none, _, _) => resAbort
      | none => Except.ok (.stop failed1)

/-- The outer tier-3 loop of Translator::fix_by_llm: while the stored result
has errors, run one iteration; Except.ok none is fuel exhaustion (the only
loop whose fuel exhaustion is observable, so that the termination bound can
be stated). -/
def fixByLlmAux (O : Oracle) (iF : Nat) : Nat → FixContext → List String →
    Res (Option (FixContext × List String))
  | 0, _, _ => .ok none
  | fuel + 1, c, failed =>
    match c.result with
    | none => .ok (some (c, failed))
    | some res =>
      if res.errors = [] then .ok (some (c, failed))
      else do
        let s ← fixByLlmStep O iF c failed
        match s with
        | .cont c1 failed1 => fixByLlmAux O iF fuel c1 failed1
        | .stop failed1 => Except.ok (some (c, failed1))

/-- Translator::fix_by_llm: tiers 1 and 2 first, then the tier-3 loop with
an empty failed set. The outer fuel is one more than the residual error
count, which suffices by the termination bound proved below; the
fuel-exhaustion branch is unreachable and mapped to an abort. -/
def fixByLlm (O : Oracle) (iF : Nat) (c : FixContext) : Res FixContext := do
  let c1 ← fixByCompiler O iF c
  let r ← fixByLlmAux O iF (errCount c1 + 1) c1 []
  match r with
  | some (c2, _) => Except.ok c2
  | none => resAbort

/-- The canonical derive list (static DERIVES in translation.rs). -/
def DERIVES : List String :=
  ["Clone", "Copy", "Debug", "Default", "PartialOrd", "Ord", "PartialEq", "Eq", "Hash"]

/-- Translator::take_uses: drain every use-sorted item out of the list; a
drained item's code joins the returned set when the standalone compile
probe (the item's code followed by an empty entry point) passes. The items
component is what remains in place. -/
def usePassesProbe (O : Oracle) (u : String) : Bool :=
  match O.typeCheck (u ++ "\nfn main() \x7b\x7d") with
  | some r => r.passed
  | none => false

/-- The drain part of Translator::take_uses, plus the probed use set. -/
def takeUses (O : Oracle) (items : List ParsedItem) : List ParsedItem × List String :=
  (items.filter (fun i => decide (¬ i.sort = ItemSort.use)),
   (items.filter (fun i => decide (i.sort = ItemSort.use))).foldl
     (fun acc i => if usePassesProbe O i.code then insS (trimS i.code) acc else acc) [])

/-- Translator::dedup_and_check: drop items whose names were already
translated (type items against the type-name set, others against the
term-name set) and assert that the item being translated survives. -/
def dedupAndCheck (typeNames termNames : List String) (newName : String)
    (items : List ParsedItem) : Res (List ParsedItem) :=
  let kept := items.filter (fun i =>
    match i.sort with
    | .type _ => decide (i.name ∉ typeNames)
    | _ => decide (i.name ∉ termNames))
  if kept.any (fun i => i.name == newName) then .ok kept else resAbort

/-- The derive-attachment loop in Translator::translate_type: typedefs get
the empty slice of DERIVES, unions its first two entries, anything else the
whole list; each entry is inserted into the item's derive set. -/
def attachDerives (items : List ParsedItem) : List ParsedItem :=
  items.map (fun item =>
    match item.sort with
    | .type t =>
      let ds := match t.sort with
        | .typedef => DERIVES.take 0
        | .union => DERIVES.take 2
        | _ => DERIVES
      { item with sort := .type { t with derives := ds.foldl (fun acc d => insS d acc) t.derives } }
    | _ => item)

/-- Remove the first entry with the given key from an association list,
returning its value and the remainder (BTreeMap::remove). -/
def assocRemove (k : String) : List (String × List String) →
    Option (List String × List (String × List String))
  | [] => none
  | p :: rest =>
    if p.1 = k then some (p.2, rest)
    else
      match assocRemove k rest with
      | some (v, rest1) => some (v, p :: rest1)
      | none => none

/-- One pass of the per-item loop in Translator::remove_wrong_derives: each
type item whose name the derive errors mention drops the mentioned derives,
and the mentioned entry leaves the error map. -/
def derivePass : List ParsedItem → List (String × List String) →
    List ParsedItem × List (String × List String)
  | [], errs => ([], errs)
  | item :: rest, errs =>
    match item.sort with
    | .type t =>
      (match assocRemove item.name errs with
       | some (ds, errs1) =>
         let t1 := { t with derives := t.derives.filter (fun d => decide (d ∉ ds)) }
         let item1 := { item with sort := ItemSort.type t1 }
         let r := derivePass rest errs1
         (item1 :: r.1, r.2)
       | none =>
         let r := derivePass rest errs
         (item :: r.1, r.2))
    | _ =>
      let r := derivePass rest errs
      (item :: r.1, r.2)

/-- Translator::remove_wrong_derives: loop asking the derive checker about
the prefix plus the current code; stop when no derive error remains; after
each pass assert that every reported name matched a type item (leftover
entries abort); fuel bounds the loop and exhaustion behaves as loop exit. -/
def removeWrongDerives (O : Oracle) : Nat → String → TranslationResult → Res TranslationResult
  | 0, _, translated => .ok translated
  | fuel + 1, checkingPrefix, translated =>
    let errors := O.checkDerive (checkingPrefix ++ "\n" ++ translated.code)
    if errors = [] then .ok translated
    else
      let r := derivePass translated.items errors
      if r.2 = [] then removeWrongDerives O fuel checkingPrefix { translated with items := r.1 }
      else resAbort

/-- The derive phase at the end of Translator::translate_type: attach the
per-sort derive sets, then minimize. -/
def finalizeDerives (O : Oracle) (fuel : Nat) (checkingPrefix : String)
    (translated : TranslationResult) : Res TranslationResult :=
  removeWrongDerives O fuel checkingPrefix { translated with items := attachDerives translated.items }

/-- The re-parse step at the end of Translator::translate_type: when the
repair loop changed the code, re-parse it (unwrap aborts on failure) and
assert the item name set is unchanged before adopting the fixed items. -/
def translateTypeReparse (O : Oracle) (itemNames : List String) (translatedCode : String)
    (c1code : String) (tr2 : TranslationResult) : Res TranslationResult :=
  if translatedCode = c1code then Except.ok tr2
  else
    match O.parse c1code with
    | none => resAbort
    | some fixedItems =>
      if sortDedup (fixedItems.map (fun i => i.name)) = itemNames
      then Except.ok { tr2 with items := fixedItems }
      else resAbort

/-- The tail of Translator::translate_type after the repair loop: assert
the final check passed (abort otherwise), record the final use set and
residual error count, re-parse if the code changed, then attach and
minimize derives. -/
def translateTypeFinish (O : Oracle) (dF : Nat) (checkingPrefix : String)
    (itemNames : List String) (translatedCode : String) (tr1 : TranslationResult)
    (c1 : FixContext) : Res TranslationResult :=
  match c1.result with
  | none => resAbort
  | some res =>
    if res.passed then do
      let tr2 : TranslationResult := { tr1 with uses := c1.uses, errors := res.errors.length }
      let tr3 ← translateTypeReparse O itemNames translatedCode c1.code tr2
      finalizeDerives O dF checkingPrefix tr3
    else resAbort

/-- The part of Translator::translate_type following the initial LLM
translation and parse (whose reply arrives here as the translated
argument): return copied results unchanged; dedup and assert the main item
survives; drain use items (the probed set is discarded, exactly as the
Rust call discards take_uses' return value); run the repair loop against
the checking prefix; assert the final check passed; record the residual
error count and the final use set; when the code changed, re-parse it and
assert the item names are unchanged; finally attach and minimize derives. -/
def translateTypePost (O : Oracle) (iF dF : Nat) (typeNames termNames : List String)
    (newName : String) (checkingPrefix : String) (translated : TranslationResult) :
    Res TranslationResult :=
  if translated.copied then .ok translated
  else do
    let items0 ← dedupAndCheck typeNames termNames newName translated.items
    let items1 := (takeUses O items0).1
    let tr1 : TranslationResult := { translated with items := items1 }
    let itemNames := sortDedup (items1.map (fun i => i.name))
    let translatedCode := tr1.code
    let c0 ← FixContext.new O tr1.uses checkingPrefix translatedCode itemNames
    let c1 ← fixByLlm O iF c0
    translateTypeFinish O dF checkingPrefix itemNames translatedCode tr1 c1

/-- BTreeMap::entry(k).or_insert(v) on the signature map: keep the existing
entry when the key is present, otherwise add the binding. (The map's key
ordering is not modelled: no settled claim depends on its iteration
order.) -/
def entryOrInsert (m : List (SigTy × String)) (k : SigTy) (v : String) : List (SigTy × String) :=
  if m.any (fun p => p.1 == k) then m else m ++ [(k, v)]

/-- One iteration of the signature-collection loop in
Translator::translate_function: remove the return arrows, skip the line
when its angle-bracket counts disagree; parse the line as a stub with an
empty body, skipping the line when parsing fails; assert exactly one item
named as expected came back; a non-function item panics; otherwise record
its shape and printable signature. -/
def processSig (O : Oracle) (newName : String) (m : List (SigTy × String)) (sig : String) :
    Res (List (SigTy × String)) :=
  let s : String := ⟨removeArrows sig.data⟩
  if s.data.count '<' ≠ s.data.count '>' then .ok m
  else
    match O.parse (sig ++ "\x7b\x7d") with
    | none => .ok m
    | some parsedItems =>
      match parsedItems with
      | [item] =>
        if item.name = newName then
          match item.sort with
          | .func f => .ok (entryOrInsert m f.normalizedSignatureTy f.normalizedSignature)
          | _ => resAbort
        else resAbort
      | _ => resAbort

/-- The whole signature-collection fold over the LLM's candidate lines. -/
def buildSigMap (O : Oracle) (newName : String) (sigs : List String) :
    Res (List (SigTy × String)) :=
  sigs.foldlM (processSig O newName) []

/-- The arity filter after the collection loop: when any candidate shape has
at most the original C parameter count, retain only such candidates. -/
def filterSigsByArity (paramLen : Nat) (m : List (SigTy × String)) : List (SigTy × String) :=
  if m.any (fun p => decide (p.1.params.length ≤ paramLen)) then
    m.filter (fun p => decide (p.1.params.length ≤ paramLen))
  else m

/-- Strict key order on CustomType. Modelled from the spec: c_parser.rs (the
Ord derivation on CustomType) is not under src/; the spec only requires a
total order for deterministic iteration, taken here lexicographically on
the name and then the sort. -/
def TypeSort.idx : TypeSort → Nat
  | .typedef => 0
  | .strct => 1
  | .union => 2

/-- The strict order on CustomType keys used by the translated-types map. -/
def ctLtB (a b : CustomType) : Bool :=
  strLtB a.name b.name || (a.name == b.name && decide (a.sort.idx < b.sort.idx))

/-- Propositional form of the CustomType key order. -/
def ctLt (a b : CustomType) : Prop := ctLtB a b = true

instance : DecidableRel ctLt := fun a b => by
  unfold ctLt
  infer_instance

/-- Sorted association-map insertion (BTreeMap::insert): replace the value
at an existing key, otherwise insert at the ordered position. -/
def insAssoc {κ α : Type} (lt : κ → κ → Bool) [DecidableEq κ]
    (k : κ) (v : α) : List (κ × α) → List (κ × α)
  | [] => [(k, v)]
  | p :: t =>
    if lt k p.1 then (k, v) :: p :: t
    else if k = p.1 then (k, v) :: t
    else p :: insAssoc lt k v t

/-- The shared translation state behind the lock (TranslatorInner): the two
translated-name sets, the three artifact maps and the global use set, all
ordered as their BTree containers are. -/
structure TranslatorInner where
  translatedTypeNames : List String
  translatedTermNames : List String
  translatedTypes : List (CustomType × TranslationResult)
  translatedVariables : List (String × TranslationResult)
  translatedFunctions : List (String × TranslationResult)
  uses : List String
deriving DecidableEq

/-- The state Translator::new builds: empty stores, and the two extern
crate lines inserted into the use set (once_cell first, then libc). -/
def initInner : TranslatorInner :=
  { translatedTypeNames := []
    translatedTermNames := []
    translatedTypes := []
    translatedVariables := []
    translatedFunctions := []
    uses := insS "extern crate libc;" (insS "extern crate once_cell;" []) }

/-- The commit block shared by the three scheduler loops: every item's name
joins the type-name or term-name set by its sort, and every use line joins
the global use set trimmed. -/
def TranslatorInner.commitCommon (t : TranslatorInner) (r : TranslationResult) : TranslatorInner :=
  let t1 := r.items.foldl (fun t i =>
    match i.sort with
    | .type _ => { t with translatedTypeNames := insS i.name t.translatedTypeNames }
    | _ => { t with translatedTermNames := insS i.name t.translatedTermNames }) t
  { t1 with uses := r.uses.foldl (fun us u => insS (trimS u) us) t1.uses }

/-- The commit at the bottom of Translator::translate_types. -/
def commitType (k : CustomType) (r : TranslationResult) (t : TranslatorInner) : TranslatorInner :=
  let t1 := t.commitCommon r
  { t1 with translatedTypes := insAssoc ctLtB k r t1.translatedTypes }

/-- The commit at the bottom of Translator::translate_variables. -/
def commitVariable (k : String) (r : TranslationResult) (t : TranslatorInner) : TranslatorInner :=
  let t1 := t.commitCommon r
  { t1 with translatedVariables := insAssoc strLtB k r t1.translatedVariables }

/-- The commit at the bottom of Translator::translate_functions. -/
def commitFunction (k : String) (r : TranslationResult) (t : TranslatorInner) : TranslatorInner :=
  let t1 := t.commitCommon r
  { t1 with translatedFunctions := insAssoc strLtB k r t1.translatedFunctions }

/-- Translator::mk_code: the use set, then every non-copied artifact of the
three stores rendered by f, then the empty entry point, joined by
newlines. -/
def TranslatorInner.mkCode (t : TranslatorInner) (f : TranslationResult → String) : String :=
  joinLines (t.uses
    ++ (((t.translatedTypes.map Prod.snd) ++ (t.translatedVariables.map Prod.snd)
        ++ (t.translatedFunctions.map Prod.snd)).filter (fun r => !r.copied)).map f
    ++ ["fn main() \x7b\x7d"])

/-- Translator::code: mk_code over the full rendering. -/
def TranslatorInner.code (t : TranslatorInner) : String := t.mkCode TranslationResult.code

/-- First value bound to a key in an association list by Nat key. -/
def lookupAssoc {α : Type} (l : List (Nat × α)) (k : Nat) : Option α :=
  match l.find? (fun p => p.1 == k) with
  | some p => some p.2
  | none => none

/-- The worklist scheduler shared by translate_types, translate_variables
and translate_functions: drain the dependency-free SCCs out of the graph
(asserting singleton membership), spawn them, stop when nothing is in
flight, otherwise let the schedule choose a completed task, run it against
the current state (the cooperative tasks are modelled as atomic at their
completion point), find its SCC id, remove that id from every remaining
dependency set, commit, and continue. Also counts spawned tasks.
Except.ok none is fuel exhaustion. -/
def schedulerRun {α : Type} [DecidableEq α]
    (task : α → TranslatorInner → Res TranslationResult)
    (commit : α → TranslationResult → TranslatorInner → TranslatorInner)
    (elemMap : List (Nat × List α)) :
    Nat → List Nat → List (Nat × List Nat) → List α → TranslatorInner → Nat →
    Res (Option (TranslatorInner × Nat))
  | 0, _, _, _, _, _ => .ok none
  | fuel + 1, schedule, graph, futures, inner, spawned => do
    let ready := graph.filter (fun p => p.2.isEmpty)
    let graphRest := graph.filter (fun p => !p.2.isEmpty)
    let newElems ← ready.mapM (fun p =>
      match lookupAssoc elemMap p.1 with
      | none => resAbort
      | some elems =>
        match elems with
        | [x] => Except.ok x
        | _ => resAbort)
    let futures1 := futures ++ newElems
    let spawned1 := spawned + newElems.length
    if futures1.isEmpty then Except.ok (some (inner, spawned1))
    else
      let i := (schedule.headD 0) % futures1.length
      match futures1.get? i with
      | none => resAbort
      | some x => do
        let r ← task x inner
        match elemMap.find? (fun q => q.2.contains x) with
        | none => resAbort
        | some q =>
          let graphNext := graphRest.map (fun p => (p.1, p.2.filter (fun d => d ≠ q.1)))
          schedulerRun task commit elemMap fuel schedule.tail graphNext
            (futures1.eraseIdx i) (commit x r inner) spawned1

/-- A line the compiler wrapper can suggest as an import: it appears in the
uses component of some type-checking answer of the oracle. Every line the
repair pipeline ever adds to a use set is of this provenance. -/
def SuggestedBy (O : Oracle) (u : String) : Prop :=
  ∃ s res, O.typeCheck s = some res ∧ u ∈ res.uses

/-- The stored result's suggested-import lines all come from the oracle:
the invariant every check establishes. -/
def RProv (O : Oracle) (c : FixContext) : Prop :=
  ∀ res, c.result = some res → ∀ u ∈ res.uses, SuggestedBy O u

/-- Use-set provenance between two contexts: every use line of the second
was a use line of the first or was suggested by the compiler oracle. -/
def UsesFrom (O : Oracle) (c0 c : FixContext) : Prop :=
  ∀ u ∈ c.uses, u ∈ c0.uses ∨ SuggestedBy O u

/-- The key ordering invariant of the shared state: the three artifact maps
are sorted strictly by key, as their BTreeMap containers keep them. -/
def SortedInner (t : TranslatorInner) : Prop :=
  (t.translatedTypes.map Prod.fst).Pairwise ctLt
  ∧ (t.translatedVariables.map Prod.fst).Pairwise strLt
  ∧ (t.translatedFunctions.map Prod.fst).Pairwise strLt

/-- Items shrink across derive minimization: name and text are unchanged,
and a type item keeps its sort while its derive set only loses members. -/
def derivesShrink (j i : ParsedItem) : Prop :=
  j.name = i.name ∧ j.code = i.code ∧
  ((∃ tj ti, j.sort = ItemSort.type tj ∧ i.sort = ItemSort.type ti
      ∧ tj.sort = ti.sort ∧ tj.derives ⊆ ti.derives)
   ∨ j.sort = i.sort)

/-- What claim C1 (as amended) asserts of one tier-3 iteration: the reply
filter drops a reply whose retained-item count differs from the protected
count; a continuing iteration picks a strictly decreasing candidate of
minimal charged residual count; and when no attempt decreased the count
the iteration stops with every attempted message marked failed. -/
def C1Concl (O : Oracle) (iF : Nat) (c : FixContext) (failed : List String)
    (res : TypeCheckingResult) : Prop :=
  (∀ msg fx items, O.llmFix c.code msg = some fx → O.parse fx = some items →
     c.names.length ≠ (items.filter (fun i => decide (i.name ∈ c.names))).length →
     fixAttempt O iF c msg = .ok none)
  ∧ (∀ c1 f1, fixByLlmStep O iF c failed = .ok (.cont c1 f1) →
       errCount c1 < res.errors.length
       ∧ (∀ msg nc, msg ∈ msgsOf res failed → fixAttempt O iF c msg = .ok (some nc) →
            newErrorsOf res.errors.length (some nc) < res.errors.length →
            errCount c1 ≤ newErrorsOf res.errors.length (some nc)))
  ∧ (∀ results, (msgsOf res failed).mapM (fixAttempt O iF c) = .ok results →
       (∀ r ∈ results, ¬ newErrorsOf res.errors.length r < res.errors.length) →
       ∃ f1, fixByLlmStep O iF c failed = .ok (.stop f1)
         ∧ (∀ m ∈ failed, m ∈ f1) ∧ ∀ m ∈ msgsOf res failed, m ∈ f1)

/-- A trivially passing compiler oracle: every check passes with no
diagnostics, imports or suggestions; parsing, fixing and derive checking
are inert. -/
def oraclePass : Oracle :=
  { typeCheck := fun _ => some { errors := [], uses := [], suggestions := [] }
    parse := fun _ => none
    applySuggestions := fun _ _ => none
    llmFix := fun _ _ => none
    checkDerive := fun _ => [] }

/-- A compiler oracle that answers nothing at all: no probe can pass. -/
def oracleNoComp : Oracle :=
  { typeCheck := fun _ => none
    parse := fun _ => none
    applySuggestions := fun _ _ => none
    llmFix := fun _ _ => none
    checkDerive := fun _ => [] }

/-- A context whose stored result is already fully passing. -/
def ctxPassing : FixContext :=
  { uses := [], pfx := "P", code := "C",
    names := [], result := some { errors := [], uses := [], suggestions := [] } }

/-- Oracle for the tier-3 filter counterexample: the fix for message m of
code C0 parses into two items both named a; checks on any code pass. -/
def oracleC1 : Oracle :=
  { typeCheck := fun s =>
      if s = "P\nC0" then
        some { errors := [⟨2, "m"⟩, ⟨2, "n"⟩], uses := [], suggestions := [] }
      else some { errors := [], uses := [], suggestions := [] }
    parse := fun s =>
      if s = "FX" then some [⟨"a", ItemSort.var, "A1"⟩, ⟨"a", ItemSort.var, "A2"⟩] else none
    applySuggestions := fun _ _ => none
    llmFix := fun code msg => if code = "C0" ∧ msg = "m" then some "FX" else none
    checkDerive := fun _ => [] }

/-- The context under repair in the tier-3 filter counterexample: protected
names a and b, residual messages m and n. -/
def ctxC1 : FixContext :=
  { uses := [], pfx := "P", code := "C0", names := ["a", "b"],
    result := some { errors := [⟨2, "m"⟩, ⟨2, "n"⟩], uses := [], suggestions := [] } }

/-- The accepted candidate of the filter counterexample: both retained items
are named a, yet the protected name b never reappears. -/
def ctxC1out : FixContext :=
  { uses := [], pfx := "P", code := "A1\nA2", names := ["a", "b"],
    result := some { errors := [], uses := [], suggestions := [] } }

/-- Oracle of the termination counterexample: fixing message A of code C0
yields code C1 which still has residual message B; message B has no fix. -/
def oracleC2 : Oracle :=
  { typeCheck := fun s =>
      if s = "P\nC0" then
        some { errors := [⟨2, "A"⟩, ⟨2, "B"⟩], uses := [], suggestions := [] }
      else if s = "P\nC1" then
        some { errors := [⟨2, "B"⟩], uses := [], suggestions := [] }
      else none
    parse := fun s => if s = "FA" then some [⟨"f", ItemSort.var, "C1"⟩] else none
    applySuggestions := fun _ _ => none
    llmFix := fun code msg => if code = "C0" ∧ msg = "A" then some "FA" else none
    checkDerive := fun _ => [] }

/-- Initial context of the termination counterexample. -/
def ctxC2 : FixContext :=
  { uses := [], pfx := "P", code := "C0", names := ["f"],
    result := some { errors := [⟨2, "A"⟩, ⟨2, "B"⟩], uses := [], suggestions := [] } }

/-- State after the first outer iteration of the termination counterexample:
one residual error whose message has already been marked failed. -/
def ctxC2mid : FixContext :=
  { uses := [], pfx := "P", code := "C1", names := ["f"],
    result := some { errors := [⟨2, "B"⟩], uses := [], suggestions := [] } }

/-- Oracle whose single diagnostic lies below the prefix region. -/
def oracleC3ok : Oracle :=
  { typeCheck := fun _ => some { errors := [⟨2, "e"⟩], uses := [], suggestions := [] }
    parse := fun _ => none
    applySuggestions := fun _ _ => none
    llmFix := fun _ _ => none
    checkDerive := fun _ => [] }

/-- Oracle whose single diagnostic lies inside the prefix region. -/
def oracleC3bad : Oracle :=
  { typeCheck := fun _ => some { errors := [⟨1, "e"⟩], uses := [], suggestions := [] }
    parse := fun _ => none
    applySuggestions := fun _ _ => none
    llmFix := fun _ _ => none
    checkDerive := fun _ => [] }

/-- A one-line-prefix context with no stored result yet. -/
def ctxC3 : FixContext :=
  { uses := [], pfx := "P", code := "C", names := [], result := none }

/-- The context ctxC3 after a passing check against oracleC3ok. -/
def ctxC3out : FixContext :=
  { uses := [], pfx := "P", code := "C", names := [],
    result := some { errors := [⟨2, "e"⟩], uses := [], suggestions := [] } }

/-- A one-item struct translation, input of the derive witnesses. -/
def trStruct : TranslationResult :=
  { items := [⟨"S", ItemSort.type { sort := TypeSort.strct, derives := [] }, "struct S;"⟩],
    uses := [], errors := 0, copied := false, signatureOnly := false }

/-- Oracle of the signature-phase witness: the stub of the kept signature
parses into a single function item of the expected name. -/
def oracleC7 : Oracle :=
  { typeCheck := fun _ => none
    parse := fun s =>
      if s = "fn f()\x7b\x7d" then
        some [⟨"f", ItemSort.func { normalizedSignatureTy := { params := [], ret := "unit" },
                                    normalizedSignature := "fn f()" }, "fn f()"⟩]
      else none
    applySuggestions := fun _ _ => none
    llmFix := fun _ _ => none
    checkDerive := fun _ => [] }

/-- A concrete variable translation result named A. -/
def trVarA : TranslationResult :=
  { items := [⟨"A", ItemSort.var, "static A: i32 = 0;"⟩],
    uses := [], errors := 0, copied := false, signatureOnly := false }

/-- A concrete variable translation result named B. -/
def trVarB : TranslationResult :=
  { items := [⟨"B", ItemSort.var, "static B: i32 = 0;"⟩],
    uses := [], errors := 0, copied := false, signatureOnly := false }

/-- State reached by committing variable b first and variable a second. -/
def innerBA : TranslatorInner :=
  commitVariable "a" trVarA (commitVariable "b" trVarB initInner)

/-- What claim C4 asserts of the derive phase: the canonical list, the
derive sets each sort receives, and the final derive sets after
minimization. -/
def C4Concl (translated result : TranslationResult) : Prop :=
  DERIVES = ["Clone", "Copy", "Debug", "Default", "PartialOrd", "Ord", "PartialEq", "Eq", "Hash"]
  ∧ (∀ i ∈ attachDerives translated.items, ∀ t, i.sort = ItemSort.type t →
      (t.sort = TypeSort.typedef → t.derives = [])
      ∧ (t.sort = TypeSort.union → t.derives = ["Clone", "Copy"])
      ∧ (t.sort = TypeSort.strct → t.derives =
          ["Clone", "Copy", "Debug", "Default", "Eq", "Hash", "Ord", "PartialEq", "PartialOrd"]))
  ∧ (∀ i ∈ result.items, ∀ t, i.sort = ItemSort.type t →
      (t.sort = TypeSort.typedef → t.derives = [])
      ∧ (t.sort = TypeSort.union → t.derives ⊆ DERIVES.take 2)
      ∧ t.derives ⊆ DERIVES)

/-- What claim C5 (as amended) asserts of the emitted program string: the
use set, then the non-copied artifacts of each kind in map order, then the
empty entry point; and commits keep each artifact map sorted by key, so map
order is ascending key order. -/
def C5Concl (t : TranslatorInner) (f : TranslationResult → String) : Prop :=
  t.mkCode f = joinLines (t.uses
    ++ ((t.translatedTypes.map Prod.snd).filter (fun r => !r.copied)).map f
    ++ ((t.translatedVariables.map Prod.snd).filter (fun r => !r.copied)).map f
    ++ ((t.translatedFunctions.map Prod.snd).filter (fun r => !r.copied)).map f
    ++ ["fn main() \x7b\x7d"])
  ∧ SortedInner initInner
  ∧ (∀ k r, SortedInner (commitType k r t))
  ∧ (∀ k r, SortedInner (commitVariable k r t))
  ∧ (∀ k r, SortedInner (commitFunction k r t))

/-- What claim C7 asserts of the signature phase: lines with unbalanced
angle brackets (after removing return arrows) contribute nothing, the kept
map has one representative per shape, and the arity filter retains only
shapes within the original parameter count once any such shape exists. -/
def C7Concl (O : Oracle) (nn : String) (m : List (SigTy × String)) (pl : Nat) : Prop :=
  (∀ acc sig, (removeArrows sig.data).count '<' ≠ (removeArrows sig.data).count '>' →
    processSig O nn acc sig = Except.ok acc)
  ∧ (m.map Prod.fst).Nodup
  ∧ ((∃ p ∈ m, p.1.params.length ≤ pl) →
      ∀ p ∈ filterSigsByArity pl m, p.1.params.length ≤ pl)

theorem resBindOk {α β : Type} {x : Res α} {f : α → Res β} {b : β}
    (h : (x >>= f) = Except.ok b) : ∃ a, x = Except.ok a ∧ f a = Except.ok b := by
  cases x with
  | ok a => exact ⟨a, rfl, h⟩
  | error e => simp [Bind.bind, Except.bind] at h

theorem mapM_ok_zip {α β : Type} (f : α → Res β) :
    ∀ (l : List α) (rs : List β), l.mapM f = Except.ok rs →
      (∀ p ∈ rs.zip l, f p.2 = Except.ok p.1) ∧ (∀ a ∈ l, ∃ r, (r, a) ∈ rs.zip l) := by
  intro l
  induction l with
  | nil =>
    intro rs h
    simp only [List.mapM_nil, pure, Except.pure] at h
    injection h with h
    subst h
    simp
  | cons a t ih =>
    intro rs h
    rw [List.mapM_cons] at h
    obtain ⟨r, hr, h2⟩ := resBindOk h
    obtain ⟨rt, hrt, h3⟩ := resBindOk h2
    simp only [pure, Except.pure] at h3
    injection h3 with h3
    subst h3
    obtain ⟨hz, hm⟩ := ih rt hrt
    constructor
    · intro p hp
      rcases List.mem_cons.mp hp with hp | hp
      · subst hp; exact hr
      · exact hz p hp
    · intro x hx
      rcases List.mem_cons.mp hx with hx | hx
      · subst hx; exact ⟨r, List.mem_cons_self _ _⟩
      · obtain ⟨rr, hrr⟩ := hm x hx
        exact ⟨rr, List.mem_cons_of_mem _ hrr⟩

theorem minByKey_mem {β : Type} (key : β → Nat) :
    ∀ (l : List β) (x : β), minByKey key l = some x → x ∈ l := by
  have aux : ∀ (l : List β) (y x : β),
      l.foldl (fun acc z =>
        match acc with
        | none => some z
        | some w => if key z < key w then some z else some w) (some y) = some x →
      x = y ∨ x ∈ l := by
    intro l
    induction l with
    | nil => intro y x h; injection h with h; exact Or.inl h.symm
    | cons a t ih =>
      intro y x h
      simp only [List.foldl_cons] at h
      by_cases hk : key a < key y
      · rw [if_pos hk] at h
        rcases ih a x h with h1 | h1
        · exact Or.inr (h1 ▸ List.mem_cons_self _ _)
        · exact Or.inr (List.mem_cons_of_mem _ h1)
      · rw [if_neg hk] at h
        rcases ih y x h with h1 | h1
        · exact Or.inl h1
        · exact Or.inr (List.mem_cons_of_mem _ h1)
  intro l x h
  cases l with
  | nil => simp [minByKey] at h
  | cons a t =>
    unfold minByKey at h
    simp only [List.foldl_cons] at h
    rcases aux t a x h with h1 | h1
    · exact h1 ▸ List.mem_cons_self _ _
    · exact List.mem_cons_of_mem _ h1

theorem minByKey_le {β : Type} (key : β → Nat) :
    ∀ (l : List β) (x : β), minByKey key l = some x → ∀ y ∈ l, key x ≤ key y := by
  have aux : ∀ (l : List β) (y x : β),
      l.foldl (fun acc z =>
        match acc with
        | none => some z
        | some w => if key z < key w then some z else some w) (some y) = some x →
      key x ≤ key y ∧ ∀ z ∈ l, key x ≤ key z := by
    intro l
    induction l with
    | nil =>
      intro y x h
      injection h with h
      subst h
      exact ⟨Nat.le_refl _, by simp⟩
    | cons a t ih =>
      intro y x h
      simp only [List.foldl_cons] at h
      by_cases hk : key a < key y
      · rw [if_pos hk] at h
        obtain ⟨h1, h2⟩ := ih a x h
        refine ⟨Nat.le_of_lt (Nat.lt_of_le_of_lt h1 hk), ?_⟩
        intro z hz
        rcases List.mem_cons.mp hz with hz | hz
        · exact hz ▸ h1
        · exact h2 z hz
      · rw [if_neg hk] at h
        obtain ⟨h1, h2⟩ := ih y x h
        refine ⟨h1, ?_⟩
        intro z hz
        rcases List.mem_cons.mp hz with hz | hz
        · exact hz ▸ Nat.le_trans h1 (Nat.le_of_not_lt hk)
        · exact h2 z hz
  intro l x h y hy
  cases l with
  | nil => simp at hy
  | cons a t =>
    unfold minByKey at h
    simp only [List.foldl_cons] at h
    obtain ⟨h1, h2⟩ := aux t a x h
    rcases List.mem_cons.mp hy with hy | hy
    · exact hy ▸ h1
    · exact h2 y hy

theorem insS_mem (u v : String) : ∀ l : List String, u ∈ insS v l ↔ u = v ∨ u ∈ l := by
  intro l
  induction l with
  | nil => simp [insS]
  | cons t ts ih =>
    unfold insS
    by_cases h1 : strLtB v t
    · rw [if_pos h1]; simp
    · rw [if_neg h1]
      by_cases h2 : v = t
      · rw [if_pos h2]
        subst h2
        simp only [List.mem_cons]
        constructor
        · intro h; rcases h with h | h
          · exact Or.inl h
          · exact Or.inr (Or.inr h)
        · intro h; rcases h with h | h | h
          · exact Or.inl (h ▸ rfl)
          · exact Or.inl h
          · exact Or.inr h
      · rw [if_neg h2]
        simp only [List.mem_cons, ih]
        tauto

theorem foldl_insS_keeps {γ : Type} (f : γ → String) :
    ∀ (l : List γ) (acc : List String) (m : String), m ∈ acc →
      m ∈ l.foldl (fun acc t => insS (f t) acc) acc := by
  intro l
  induction l with
  | nil => intro acc m h; exact h
  | cons a t ih =>
    intro acc m h
    simp only [List.foldl_cons]
    exact ih _ m ((insS_mem m (f a) acc).mpr (Or.inr h))

theorem foldl_insS_adds {γ : Type} (f : γ → String) :
    ∀ (l : List γ) (acc : List String) (t : γ), t ∈ l →
      f t ∈ l.foldl (fun acc t => insS (f t) acc) acc := by
  intro l
  induction l with
  | nil => intro acc t h; simp at h
  | cons a rest ih =>
    intro acc t h
    simp only [List.foldl_cons]
    rcases List.mem_cons.mp h with h | h
    · subst h
      exact foldl_insS_keeps f rest _ _ ((insS_mem _ _ _).mpr (Or.inl rfl))
    · exact ih _ t h

theorem fixByLlmStep_cont_inv (O : Oracle) (iF : Nat) (c : FixContext) (failed : List String)
    (c1 : FixContext) (f1 : List String)
    (h : fixByLlmStep O iF c failed = Except.ok (StepRes.cont c1 f1)) :
    ∃ res results k m,
      c.result = some res
      ∧ (msgsOf res failed).mapM (fixAttempt O iF c) = Except.ok results
      ∧ minByKey (fun t => t.2.1)
          ((taggedOf res.errors.length results (msgsOf res failed)).filter
            (fun t => decide (t.2.1 < res.errors.length))) = some (some c1, k, m)
      ∧ f1 = ((taggedOf res.errors.length results (msgsOf res failed)).filter
            (fun t => decide (¬ t.2.1 < res.errors.length))).foldl
            (fun acc t => insS t.2.2 acc) failed := by
  unfold fixByLlmStep at h
  cases hc : c.result with
  | none => rw [hc] at h; simp at h
  | some res =>
    rw [hc] at h
    simp only at h
    obtain ⟨results, hres, h2⟩ := resBindOk h
    refine ⟨res, results, ?_⟩
    cases hmin : minByKey (fun t => t.2.1)
        ((taggedOf res.errors.length results (msgsOf res failed)).filter
          (fun t => decide (t.2.1 < res.errors.length))) with
    | none =>
      rw [hmin] at h2
      simp only [Except.ok.injEq] at h2
      cases h2
    | some trip =>
      obtain ⟨nc, k, m⟩ := trip
      cases nc with
      | none =>
        rw [hmin] at h2
        simp [resAbort] at h2
      | some nc =>
        rw [hmin] at h2
        simp only [Except.ok.injEq, StepRes.cont.injEq] at h2
        obtain ⟨hnc, hf1⟩ := h2
        subst hnc
        subst hf1
        exact ⟨k, m, rfl, hres, rfl, rfl⟩

theorem minByKey_succ_key (len : Nat) (results : List (Option FixContext))
    (msgs : List String) (c1 : FixContext) (k : Nat) (m : String)
    (hmin : minByKey (fun t => t.2.1) ((taggedOf len results msgs).filter
        (fun t => decide (t.2.1 < len))) = some (some c1, k, m)) :
    errCount c1 = k ∧ k < len := by
  have hmem := minByKey_mem _ _ _ hmin
  rw [List.mem_filter] at hmem
  obtain ⟨htag, hdec⟩ := hmem
  have hk : k < len := by
    simpa using hdec
  unfold taggedOf at htag
  rw [List.mem_map] at htag
  obtain ⟨p, _, hp⟩ := htag
  have hp1 : p.1 = some c1 := congrArg Prod.fst hp
  have hp2 : newErrorsOf len p.1 = k :=
    congrArg (fun q => q.2.1) hp
  rw [hp1] at hp2
  simp only [newErrorsOf] at hp2
  refine ⟨?_, hk⟩
  cases hr : c1.result with
  | none =>
    rw [hr] at hp2
    have h3 : len = k := hp2
    omega
  | some r =>
    rw [hr] at hp2
    have h3 : r.errors.length = k := hp2
    simp only [errCount, hr]
    exact h3

theorem fixByLlmStep_cont_decrease (O : Oracle) (iF : Nat) (c : FixContext)
    (failed : List String) (c1 : FixContext) (f1 : List String)
    (h : fixByLlmStep O iF c failed = Except.ok (StepRes.cont c1 f1)) :
    errCount c1 < errCount c := by
  obtain ⟨res, results, k, m, hc, hres, hmin, hf1⟩ := fixByLlmStep_cont_inv O iF c failed c1 f1 h
  obtain ⟨hcount, hk⟩ := minByKey_succ_key res.errors.length results (msgsOf res failed) c1 k m hmin
  have hEc : errCount c = res.errors.length := by
    simp only [errCount, hc]
  omega

theorem fixByLlmAux_ne_none (O : Oracle) (iF : Nat) :
    ∀ (fuel : Nat) (c : FixContext) (failed : List String), errCount c < fuel →
      fixByLlmAux O iF fuel c failed ≠ Except.ok none := by
  intro fuel
  induction fuel with
  | zero => intro c failed h; omega
  | succ n ih =>
    intro c failed h
    unfold fixByLlmAux
    cases hc : c.result with
    | none => simp
    | some res =>
      by_cases he : res.errors = []
      · simp [he]
      · simp only [he, if_neg he]
        cases hs : fixByLlmStep O iF c failed with
        | error e => simp [Bind.bind, Except.bind]
        | ok s =>
          cases s with
          | cont c1 f1 =>
            simp only [Bind.bind, Except.bind]
            apply ih
            have hd := fixByLlmStep_cont_decrease O iF c failed c1 f1 hs
            have : errCount c = res.errors.length := by unfold errCount; rw [hc]
            omega
          | stop f1 =>
            simp [Bind.bind, Except.bind]

/-- C2 counterexample: a concrete two-iteration run of the tier-3 loop.
The first iteration continues (error count 2 drops to 1, message B marked
failed); the second iteration has a nonzero residual error count whose only
message B has already failed, so it stops while marking no message and
decreasing nothing — against the claim that each outer iteration either
strictly decreases the count or marks at least one message and stops. -/
theorem C2_iteration_cex :
    FixContext.new oracleC2 [] "P" "C0" ["f"] = Except.ok ctxC2
    ∧ fixByLlmStep oracleC2 1 ctxC2 [] = Except.ok (StepRes.cont ctxC2mid ["B"])
    ∧ fixByLlmStep oracleC2 1 ctxC2mid ["B"] = Except.ok (StepRes.stop ["B"])
    ∧ errCount ctxC2mid = 1 ∧ errCount ctxC2 = 2 :=
  ⟨by decide, by decide, by decide, by decide, by decide⟩

/-- C2 (amended): the outer tier-3 loop of fix_by_llm terminates within
one more iteration than the residual error count, because a continuing
iteration strictly decreases that count; an iteration that does not
decrease it stops (marking the attempted messages failed, possibly none
when every residual message already failed). -/
theorem C2_termination_amended (O : Oracle) (iF fuel : Nat) (c : FixContext)
    (failed : List String) (h : errCount c < fuel) :
    fixByLlmAux O iF fuel c failed ≠ Except.ok none
    ∧ ∀ c1 f1, fixByLlmStep O iF c failed = Except.ok (StepRes.cont c1 f1) →
        errCount c1 < errCount c :=
  ⟨fixByLlmAux_ne_none O iF fuel c failed h,
   fun c1 f1 hs => fixByLlmStep_cont_decrease O iF c failed c1 f1 hs⟩

/-- Witness for C2 at a concrete passing context with fuel one. -/
theorem C2_termination_amended_witness :
    fixByLlmAux oraclePass 1 1 ctxPassing [] ≠ Except.ok none
    ∧ ∀ c1 f1, fixByLlmStep oraclePass 1 ctxPassing [] = Except.ok (StepRes.cont c1 f1) →
        errCount c1 < errCount ctxPassing :=
  C2_termination_amended oraclePass 1 1 ctxPassing [] (by decide)

/-- C3: a successful FixContext::check leaves only diagnostics whose line
lies strictly beyond the uses-plus-prefix region, and a diagnostic inside
that region makes check abort the program. -/
theorem C3_check_invariant (O : Oracle) (c c1 : FixContext) :
    (FixContext.check O c = Except.ok c1 →
      ∀ res, c1.result = some res → ∀ e ∈ res.errors, c1.prefixLines < e.line)
    ∧ (∀ res, O.typeCheck c.fullCode = some res →
        (∃ e ∈ res.errors, e.line ≤ c.prefixLines) → FixContext.check O c = resAbort) := by
  constructor
  · intro h res hres e he
    unfold FixContext.check at h
    cases ht : O.typeCheck c.fullCode with
    | none =>
      rw [ht] at h
      injection h with h
      subst h
      simp at hres
    | some res2 =>
      rw [ht] at h
      have h9 : (if ∀ e ∈ res2.errors, c.prefixLines < e.line then
          Except.ok ({ c with result := some res2 } : FixContext) else resAbort)
          = Except.ok c1 := h
      by_cases hall : ∀ e ∈ res2.errors, c.prefixLines < e.line
      · rw [if_pos hall] at h9
        injection h9 with h9
        subst h9
        have hres2 : res2 = res := by simpa using hres
        subst hres2
        exact hall e he
      · rw [if_neg hall] at h9
        simp [resAbort] at h9
  · intro res ht hex
    obtain ⟨e, he, hle⟩ := hex
    unfold FixContext.check
    rw [ht]
    show (if ∀ e ∈ res.errors, c.prefixLines < e.line then
        Except.ok ({ c with result := some res } : FixContext) else resAbort) = resAbort
    rw [if_neg]
    intro hall
    have := hall e he
    omega

/-- Witness for C3: a diagnostic on line two survives a one-line prefix,
and a diagnostic on line one aborts. -/
theorem C3_check_invariant_witness :
    (∀ e ∈ ({ errors := [⟨2, "e"⟩], uses := [], suggestions := [] }
        : TypeCheckingResult).errors, ctxC3out.prefixLines < e.line)
    ∧ FixContext.check oracleC3bad ctxC3 = resAbort :=
  ⟨(C3_check_invariant oracleC3ok ctxC3 ctxC3out).1 (by decide)
     { errors := [⟨2, "e"⟩], uses := [], suggestions := [] } (by decide),
   (C3_check_invariant oracleC3bad ctxC3 ctxC3).2
     { errors := [⟨1, "e"⟩], uses := [], suggestions := [] } (by decide)
     ⟨⟨1, "e"⟩, by decide, by decide⟩⟩

/-- C8: when the stored result already passes with no errors, no suggested
imports and no suggestions, the whole repair loop returns the context
unchanged with zero residual errors. -/
theorem C8_noop (O : Oracle) (iF : Nat) (c : FixContext) (res : TypeCheckingResult)
    (hres : c.result = some res) (he : res.errors = []) (hu : res.uses = [])
    (hs : res.suggestions = []) :
    fixByLlm O iF c = Except.ok c ∧ errCount c = 0 := by
  have h4 : errCount c = 0 := by simp [errCount, hres, he]
  have h1 : fixBySuggestions O iF c = Except.ok c := by
    cases iF with
    | zero => rfl
    | succ n =>
      unfold fixBySuggestions
      rw [hres]
      simp [hs]
  have h2 : fixByCompilerLoop O iF iF c = Except.ok c := by
    cases iF with
    | zero => rfl
    | succ n =>
      unfold fixByCompilerLoop
      rw [hres]
      simp [hu]
  have h3 : fixByCompiler O iF c = Except.ok c := by
    unfold fixByCompiler
    simp only [h1, Bind.bind, Except.bind, h2]
  have h5 : fixByLlmAux O iF (errCount c + 1) c [] = Except.ok (some (c, [])) := by
    rw [h4]
    unfold fixByLlmAux
    rw [hres]
    simp [he]
  refine ⟨?_, h4⟩
  unfold fixByLlm
  simp only [h3, Bind.bind, Except.bind, h5]

/-- Witness for C8 at a concrete passing context. -/
theorem C8_noop_witness :
    fixByLlm oraclePass 1 ctxPassing = Except.ok ctxPassing ∧ errCount ctxPassing = 0 :=
  C8_noop oraclePass 1 ctxPassing { errors := [], uses := [], suggestions := [] }
    rfl rfl rfl rfl

/-- C1 counterexample: the protected set is a and b; the LLM reply parses
into two items both named a, so the retained count (2) equals the
protected count (2) and the reply is accepted and even becomes the new
context, although the protected name b never reappears — against the
claim that a reply is discarded unless every protected name reappears. -/
theorem C1_filter_cex :
    oracleC1.llmFix ctxC1.code "m" = some "FX"
    ∧ oracleC1.parse "FX" = some [⟨"a", ItemSort.var, "A1"⟩, ⟨"a", ItemSort.var, "A2"⟩]
    ∧ "b" ∈ ctxC1.names
    ∧ (([⟨"a", ItemSort.var, "A1"⟩, ⟨"a", ItemSort.var, "A2"⟩] : List ParsedItem).all
        (fun i => i.name ≠ "b")) = true
    ∧ fixAttempt oracleC1 1 ctxC1 "m" = Except.ok (some ctxC1out)
    ∧ fixByLlmStep oracleC1 1 ctxC1 [] = Except.ok (StepRes.cont ctxC1out ["n"]) :=
  ⟨by decide, by decide, by decide, by decide, by decide, by decide⟩

/-- C1 (amended): in a tier-3 iteration, a parsed reply keeps only items
whose names lie in the protected set and is discarded unless the retained
count equals the protected count; a continuing iteration adopts a
candidate that strictly decreased the residual count and is minimal among
the decreased candidates; when no attempt decreased the count, the
iteration stops with every attempted message marked failed. -/
theorem C1_tier3_amended (O : Oracle) (iF : Nat) (c : FixContext) (failed : List String)
    (res : TypeCheckingResult) (hres : c.result = some res) (herr : res.errors ≠ []) :
    C1Concl O iF c failed res := by
  refine ⟨?_, ?_, ?_⟩
  · intro msg fx items hfx hparse hlen
    unfold fixAttempt
    simp only [hfx, hparse]
    rw [if_pos hlen]
  · intro c1 f1 hstep
    obtain ⟨res2, results, k, m, hc2, hmapm, hmin, hf1⟩ :=
      fixByLlmStep_cont_inv O iF c failed c1 f1 hstep
    have hres2 : res = res2 := by
      rw [hres] at hc2
      injection hc2
    subst hres2
    obtain ⟨hcount, hk⟩ :=
      minByKey_succ_key res.errors.length results (msgsOf res failed) c1 k m hmin
    constructor
    · omega
    · intro msg nc hmsg hatt hdec
      obtain ⟨hzip, hmem⟩ := mapM_ok_zip (fixAttempt O iF c) (msgsOf res failed) results hmapm
      obtain ⟨r, hr⟩ := hmem msg hmsg
      have hfr : fixAttempt O iF c msg = Except.ok r := hzip (r, msg) hr
      have hrnc : some nc = r := by
        rw [hatt] at hfr
        injection hfr
      subst hrnc
      have htag : ((some nc : Option FixContext), newErrorsOf res.errors.length (some nc), msg)
          ∈ taggedOf res.errors.length results (msgsOf res failed) := by
        unfold taggedOf
        exact List.mem_map.mpr ⟨(some nc, msg), hr, rfl⟩
      have hsucc : ((some nc : Option FixContext), newErrorsOf res.errors.length (some nc), msg)
          ∈ (taggedOf res.errors.length results (msgsOf res failed)).filter
              (fun t => decide (t.2.1 < res.errors.length)) := by
        rw [List.mem_filter]
        exact ⟨htag, by simpa using hdec⟩
      have hle := minByKey_le _ _ _ hmin _ hsucc
      simp only at hle
      omega
  · intro results hmapm hno
    have hsucc_nil : (taggedOf res.errors.length results (msgsOf res failed)).filter
        (fun t => decide (t.2.1 < res.errors.length)) = [] := by
      apply List.filter_eq_nil_iff.mpr
      intro t ht
      unfold taggedOf at ht
      rw [List.mem_map] at ht
      obtain ⟨p, hpmem, hpt⟩ := ht
      have hp1 : p.1 ∈ results := (List.of_mem_zip hpmem).1
      have hnum := hno p.1 hp1
      rw [← hpt]
      simpa using hnum
    have hfails : (taggedOf res.errors.length results (msgsOf res failed)).filter
        (fun t => decide (¬ t.2.1 < res.errors.length))
        = taggedOf res.errors.length results (msgsOf res failed) := by
      apply List.filter_eq_self.mpr
      intro t ht
      unfold taggedOf at ht
      rw [List.mem_map] at ht
      obtain ⟨p, hpmem, hpt⟩ := ht
      have hp1 : p.1 ∈ results := (List.of_mem_zip hpmem).1
      have hnum := hno p.1 hp1
      rw [← hpt]
      simpa using hnum
    refine ⟨(taggedOf res.errors.length results (msgsOf res failed)).foldl
        (fun acc t => insS t.2.2 acc) failed, ?_, ?_, ?_⟩
    · unfold fixByLlmStep
      rw [hres]
      simp only [hmapm, Bind.bind, Except.bind]
      rw [hsucc_nil, hfails]
      rfl
    · intro m hm
      exact foldl_insS_keeps (fun t : Option FixContext × Nat × String => t.2.2) _ _ _ hm
    · intro msg hmsg
      obtain ⟨r, hr⟩ := (mapM_ok_zip (fixAttempt O iF c) (msgsOf res failed) results hmapm).2 msg hmsg
      have htag : ((r : Option FixContext), newErrorsOf res.errors.length r, msg)
          ∈ taggedOf res.errors.length results (msgsOf res failed) := by
        unfold taggedOf
        exact List.mem_map.mpr ⟨(r, msg), hr, rfl⟩
      exact foldl_insS_adds (fun t : Option FixContext × Nat × String => t.2.2) _ _ _ htag

/-- Witness for C1 at the concrete two-error context. -/
theorem C1_tier3_amended_witness :
    C1Concl oracleC2 1 ctxC2 []
      { errors := [⟨2, "A"⟩, ⟨2, "B"⟩], uses := [], suggestions := [] } :=
  C1_tier3_amended oracleC2 1 ctxC2 []
    { errors := [⟨2, "A"⟩, ⟨2, "B"⟩], uses := [], suggestions := [] }
    (by decide) (by decide)

theorem derivesShrink_refl (i : ParsedItem) : derivesShrink i i :=
  ⟨rfl, rfl, Or.inr rfl⟩

theorem derivesShrink_trans (a b c : ParsedItem)
    (hab : derivesShrink a b) (hbc : derivesShrink b c) : derivesShrink a c := by
  obtain ⟨h1, h2, h3⟩ := hab
  obtain ⟨g1, g2, g3⟩ := hbc
  refine ⟨h1.trans g1, h2.trans g2, ?_⟩
  rcases h3 with ⟨ta, tb, ha, hb, hs, hsub⟩ | h3
  · rcases g3 with ⟨tb2, tc, hb2, hc, hs2, hsub2⟩ | g3
    · rw [hb] at hb2
      injection hb2 with e
      subst e
      exact Or.inl ⟨ta, tc, ha, hc, hs.trans hs2, hsub.trans hsub2⟩
    · rw [g3] at hb
      exact Or.inl ⟨ta, tb, ha, hb, hs, hsub⟩
  · rcases g3 with ⟨tb, tc, hb, hc, hs, hsub⟩ | g3
    · rw [← h3] at hb
      exact Or.inl ⟨tb, tc, hb, hc, hs, hsub⟩
    · exact Or.inr (h3.trans g3)

theorem derivePass_shrink : ∀ (items : List ParsedItem) (errs : List (String × List String)),
    ∀ j ∈ (derivePass items errs).1, ∃ i ∈ items, derivesShrink j i := by
  intro items
  induction items with
  | nil =>
    intro errs j hj
    simp [derivePass] at hj
  | cons item rest ih =>
    intro errs j hj
    obtain ⟨nm, srt, cd⟩ := item
    cases srt with
    | type t =>
      simp only [derivePass] at hj
      cases hrem : assocRemove nm errs with
      | some pr =>
        obtain ⟨ds, errs1⟩ := pr
        rw [hrem] at hj
        simp only [List.mem_cons] at hj
        rcases hj with hj | hj
        · refine ⟨⟨nm, ItemSort.type t, cd⟩, List.mem_cons_self _ _, ?_⟩
          subst hj
          refine ⟨rfl, rfl, Or.inl ⟨_, t, rfl, rfl, rfl, ?_⟩⟩
          intro d hd
          exact (List.mem_filter.mp hd).1
        · obtain ⟨i, hi, hsh⟩ := ih errs1 j hj
          exact ⟨i, List.mem_cons_of_mem _ hi, hsh⟩
      | none =>
        rw [hrem] at hj
        simp only [List.mem_cons] at hj
        rcases hj with hj | hj
        · exact ⟨⟨nm, ItemSort.type t, cd⟩, List.mem_cons_self _ _,
            hj ▸ derivesShrink_refl _⟩
        · obtain ⟨i, hi, hsh⟩ := ih errs j hj
          exact ⟨i, List.mem_cons_of_mem _ hi, hsh⟩
    | var =>
      simp only [derivePass, List.mem_cons] at hj
      rcases hj with hj | hj
      · exact ⟨⟨nm, ItemSort.var, cd⟩, List.mem_cons_self _ _, hj ▸ derivesShrink_refl _⟩
      · obtain ⟨i, hi, hsh⟩ := ih errs j hj
        exact ⟨i, List.mem_cons_of_mem _ hi, hsh⟩
    | func f =>
      simp only [derivePass, List.mem_cons] at hj
      rcases hj with hj | hj
      · exact ⟨⟨nm, ItemSort.func f, cd⟩, List.mem_cons_self _ _, hj ▸ derivesShrink_refl _⟩
      · obtain ⟨i, hi, hsh⟩ := ih errs j hj
        exact ⟨i, List.mem_cons_of_mem _ hi, hsh⟩
    | use =>
      simp only [derivePass, List.mem_cons] at hj
      rcases hj with hj | hj
      · exact ⟨⟨nm, ItemSort.use, cd⟩, List.mem_cons_self _ _, hj ▸ derivesShrink_refl _⟩
      · obtain ⟨i, hi, hsh⟩ := ih errs j hj
        exact ⟨i, List.mem_cons_of_mem _ hi, hsh⟩

theorem removeWrongDerives_shrink (O : Oracle) : ∀ (fuel : Nat) (cp : String)
    (tr r : TranslationResult), removeWrongDerives O fuel cp tr = Except.ok r →
    (r.uses = tr.uses ∧ r.errors = tr.errors ∧ r.copied = tr.copied)
    ∧ ∀ j ∈ r.items, ∃ i ∈ tr.items, derivesShrink j i := by
  intro fuel
  induction fuel with
  | zero =>
    intro cp tr r h
    injection h with h
    subst h
    exact ⟨⟨rfl, rfl, rfl⟩, fun j hj => ⟨j, hj, derivesShrink_refl j⟩⟩
  | succ n ih =>
    intro cp tr r h
    unfold removeWrongDerives at h
    by_cases he : O.checkDerive (cp ++ "\n" ++ tr.code) = []
    · rw [if_pos he] at h
      injection h with h
      subst h
      exact ⟨⟨rfl, rfl, rfl⟩, fun j hj => ⟨j, hj, derivesShrink_refl j⟩⟩
    · rw [if_neg he] at h
      by_cases h2 : (derivePass tr.items (O.checkDerive (cp ++ "\n" ++ tr.code))).2 = []
      · rw [if_pos h2] at h
        obtain ⟨⟨hu, he2, hc⟩, hshr⟩ := ih cp _ r h
        refine ⟨⟨hu, he2, hc⟩, ?_⟩
        intro j hj
        obtain ⟨i, hi, hs⟩ := hshr j hj
        obtain ⟨i0, hi0, hs0⟩ := derivePass_shrink tr.items
          (O.checkDerive (cp ++ "\n" ++ tr.code)) i hi
        exact ⟨i0, hi0, derivesShrink_trans j i i0 hs hs0⟩
      · rw [if_neg h2] at h
        simp [resAbort] at h

theorem attachDerives_spec (items : List ParsedItem)
    (hinit : ∀ i ∈ items, ∀ t, i.sort = ItemSort.type t → t.derives = []) :
    ∀ i ∈ attachDerives items, ∀ t, i.sort = ItemSort.type t →
      (t.sort = TypeSort.typedef → t.derives = [])
      ∧ (t.sort = TypeSort.union → t.derives = ["Clone", "Copy"])
      ∧ (t.sort = TypeSort.strct → t.derives =
          ["Clone", "Copy", "Debug", "Default", "Eq", "Hash", "Ord", "PartialEq", "PartialOrd"]) := by
  intro i hi t ht
  unfold attachDerives at hi
  rw [List.mem_map] at hi
  obtain ⟨j, hj, hji⟩ := hi
  obtain ⟨nm, srt, cd⟩ := j
  cases srt with
  | type tj =>
    have hd : tj.derives = [] := hinit _ hj tj rfl
    obtain ⟨tjsort, tjderives⟩ := tj
    simp only at hd
    subst hd
    cases tjsort with
    | typedef =>
      simp only at hji
      subst hji
      injection ht with ht
      subst ht
      exact ⟨fun _ => by decide, fun hx => absurd hx (by decide), fun hx => absurd hx (by decide)⟩
    | strct =>
      simp only at hji
      subst hji
      injection ht with ht
      subst ht
      exact ⟨fun hx => absurd hx (by decide), fun hx => absurd hx (by decide), fun _ => by decide⟩
    | union =>
      simp only at hji
      subst hji
      injection ht with ht
      subst ht
      exact ⟨fun hx => absurd hx (by decide), fun _ => by decide, fun hx => absurd hx (by decide)⟩
  | var =>
    simp only at hji
    subst hji
    exact absurd ht (by simp)
  | func f =>
    simp only at hji
    subst hji
    exact absurd ht (by simp)
  | use =>
    simp only at hji
    subst hji
    exact absurd ht (by simp)

/-- C4: after repair of a non-copied type, the derive phase attaches no
derives to typedef items, only the first two canonical derives to union
items and all nine canonical derives to struct items; minimization only
removes derives, so final derive sets satisfy union within the first two,
typedef empty and struct within the canonical list. -/
theorem C4_derives (O : Oracle) (fuel : Nat) (cp : String)
    (translated result : TranslationResult)
    (hinit : ∀ i ∈ translated.items, ∀ t, i.sort = ItemSort.type t → t.derives = [])
    (hrun : finalizeDerives O fuel cp translated = Except.ok result) :
    C4Concl translated result := by
  have hattach := attachDerives_spec translated.items hinit
  refine ⟨rfl, hattach, ?_⟩
  unfold finalizeDerives at hrun
  obtain ⟨_, hshr⟩ := removeWrongDerives_shrink O fuel cp _ result hrun
  intro j hj t ht
  obtain ⟨i, hi, hs⟩ := hshr j hj
  obtain ⟨h1, h2, h3⟩ := hs
  rcases h3 with ⟨tj, ti, hjt, hit, hsort, hsub⟩ | h3
  · rw [ht] at hjt
    injection hjt with e
    subst e
    have hspec := hattach i hi ti hit
    refine ⟨?_, ?_, ?_⟩
    · intro hty
      have hti : ti.sort = TypeSort.typedef := by rw [← hsort]; exact hty
      have hd0 := hspec.1 hti
      rw [hd0] at hsub
      exact List.subset_nil.mp hsub
    · intro hun
      have hti : ti.sort = TypeSort.union := by rw [← hsort]; exact hun
      have hd0 := hspec.2.1 hti
      rw [hd0] at hsub
      intro d hd
      have hdm := hsub hd
      fin_cases hdm <;> decide
    · intro d hd
      have hdi := hsub hd
      cases hts : ti.sort with
      | typedef =>
        rw [hspec.1 hts] at hdi
        simp at hdi
      | union =>
        rw [hspec.2.1 hts] at hdi
        fin_cases hdi <;> decide
      | strct =>
        rw [hspec.2.2 hts] at hdi
        fin_cases hdi <;> decide
  · rw [ht] at h3
    have hspec := hattach i hi t h3.symm
    refine ⟨hspec.1, ?_, ?_⟩
    · intro hun
      intro d hd
      rw [hspec.2.1 hun] at hd
      fin_cases hd <;> decide
    · intro d hd
      cases hts : t.sort with
      | typedef =>
        rw [hspec.1 hts] at hd
        simp at hd
      | union =>
        rw [hspec.2.1 hts] at hd
        fin_cases hd <;> decide
      | strct =>
        rw [hspec.2.2 hts] at hd
        fin_cases hd <;> decide

/-- Witness for C4 on a concrete struct translation under a passing
derive checker. -/
theorem C4_derives_witness :
    C4Concl trStruct
      { items := [⟨"S", ItemSort.type ⟨TypeSort.strct,
          ["Clone", "Copy", "Debug", "Default", "Eq", "Hash", "Ord", "PartialEq", "PartialOrd"]⟩,
          "struct S;"⟩],
        uses := [], errors := 0, copied := false, signatureOnly := false } :=
  C4_derives oraclePass 1 "" trStruct _
    (by
      intro i hi t ht
      simp only [trStruct, List.mem_singleton] at hi
      subst hi
      injection ht with h
      rw [← h])
    (by decide)

theorem charsLt_trans : ∀ (a b c : List Char), charsLt a b = true → charsLt b c = true →
    charsLt a c = true := by
  intro a
  induction a with
  | nil =>
    intro b c hab hbc
    cases b with
    | nil => simp [charsLt] at hab
    | cons y ys =>
      cases c with
      | nil => simp [charsLt] at hbc
      | cons z zs => simp [charsLt]
  | cons x xs ih =>
    intro b c hab hbc
    cases b with
    | nil => simp [charsLt] at hab
    | cons y ys =>
      cases c with
      | nil => simp [charsLt] at hbc
      | cons z zs =>
        simp only [charsLt] at hab hbc ⊢
        by_cases h1 : x < y
        · by_cases h2 : y < z
          · rw [if_pos (lt_trans h1 h2)]
          · rw [if_neg h2] at hbc
            by_cases h3 : y = z
            · subst h3
              rw [if_pos h1]
            · rw [if_neg h3] at hbc
              cases hbc
        · rw [if_neg h1] at hab
          by_cases h3 : x = y
          · rw [if_pos h3] at hab
            subst h3
            by_cases h2 : x < z
            · rw [if_pos h2]
            · rw [if_neg h2] at hbc ⊢
              by_cases h4 : x = z
              · rw [if_pos h4] at hbc ⊢
                exact ih ys zs hab hbc
              · rw [if_neg h4] at hbc
                cases hbc
          · rw [if_neg h3] at hab
            cases hab

theorem charsLt_conn : ∀ (a b : List Char), charsLt a b = false → a ≠ b →
    charsLt b a = true := by
  intro a
  induction a with
  | nil =>
    intro b hab hne
    cases b with
    | nil => exact absurd rfl hne
    | cons y ys => simp [charsLt] at hab
  | cons x xs ih =>
    intro b hab hne
    cases b with
    | nil => simp [charsLt]
    | cons y ys =>
      simp only [charsLt] at hab ⊢
      by_cases h1 : x < y
      · rw [if_pos h1] at hab
        cases hab
      · rw [if_neg h1] at hab
        by_cases h3 : x = y
        · rw [if_pos h3] at hab
          subst h3
          have hne2 : xs ≠ ys := fun hx => hne (by rw [hx])
          rw [if_neg (lt_irrefl x), if_pos rfl]
          exact ih ys hab hne2
        · have h4 : y < x := by
            rcases lt_trichotomy x y with h | h | h
            · exact absurd h h1
            · exact absurd h h3
            · exact h
          rw [if_pos h4]

theorem strLtB_trans (a b c : String) (hab : strLtB a b = true) (hbc : strLtB b c = true) :
    strLtB a c = true :=
  charsLt_trans a.data b.data c.data hab hbc

theorem strLtB_conn (a b : String) (hab : strLtB a b = false) (hne : a ≠ b) :
    strLtB b a = true := by
  apply charsLt_conn a.data b.data hab
  intro hd
  exact hne (congrArg String.mk hd)

theorem typeSortIdx_inj : ∀ s t : TypeSort, s.idx = t.idx → s = t := by
  intro s t h
  cases s <;> cases t <;> simp_all [TypeSort.idx]

theorem ctLtB_trans (a b c : CustomType) (hab : ctLtB a b = true) (hbc : ctLtB b c = true) :
    ctLtB a c = true := by
  simp only [ctLtB, Bool.or_eq_true, Bool.and_eq_true, beq_iff_eq, decide_eq_true_eq] at hab hbc ⊢
  rcases hab with hab | ⟨hab1, hab2⟩
  · rcases hbc with hbc | ⟨hbc1, hbc2⟩
    · exact Or.inl (strLtB_trans _ _ _ hab hbc)
    · rw [hbc1] at hab
      exact Or.inl hab
  · rcases hbc with hbc | ⟨hbc1, hbc2⟩
    · rw [hab1]
      exact Or.inl hbc
    · exact Or.inr ⟨hab1.trans hbc1, lt_trans hab2 hbc2⟩

theorem ctLtB_conn (a b : CustomType) (hab : ctLtB a b = false) (hne : a ≠ b) :
    ctLtB b a = true := by
  simp only [ctLtB, Bool.or_eq_true, Bool.and_eq_true, beq_iff_eq, decide_eq_true_eq]
  simp only [ctLtB, Bool.or_eq_false_iff, Bool.and_eq_false_iff] at hab
  obtain ⟨hab1, hab2⟩ := hab
  by_cases hn : a.name = b.name
  · right
    refine ⟨hn.symm, ?_⟩
    have hs : a.sort ≠ b.sort := by
      intro hs
      apply hne
      cases a
      cases b
      simp only at hn hs
      rw [hn, hs]
    have hidx : a.sort.idx ≠ b.sort.idx := fun hx => hs (typeSortIdx_inj _ _ hx)
    rcases hab2 with hab2 | hab2
    · rw [beq_eq_false_iff_ne] at hab2
      exact absurd hn hab2
    · have : ¬ a.sort.idx < b.sort.idx := by simpa using hab2
      omega
  · left
    exact strLtB_conn _ _ hab1 hn

theorem insAssoc_fst_mem {κ α : Type} (lt : κ → κ → Bool) [DecidableEq κ]
    (k : κ) (v : α) : ∀ (l : List (κ × α)) (x : κ),
    x ∈ (insAssoc lt k v l).map Prod.fst → x = k ∨ x ∈ l.map Prod.fst := by
  intro l
  induction l with
  | nil =>
    intro x hx
    simp [insAssoc] at hx
    exact Or.inl hx
  | cons p t ih =>
    intro x hx
    unfold insAssoc at hx
    simp only [List.map_cons, List.mem_cons]
    by_cases h1 : lt k p.1
    · rw [if_pos h1] at hx
      simp only [List.map_cons, List.mem_cons] at hx
      rcases hx with hx | hx | hx
      · exact Or.inl hx
      · exact Or.inr (Or.inl hx)
      · exact Or.inr (Or.inr hx)
    · rw [if_neg h1] at hx
      by_cases h2 : k = p.1
      · rw [if_pos h2] at hx
        simp only [List.map_cons, List.mem_cons] at hx
        rcases hx with hx | hx
        · exact Or.inl hx
        · exact Or.inr (Or.inr hx)
      · rw [if_neg h2] at hx
        simp only [List.map_cons, List.mem_cons] at hx
        rcases hx with hx | hx
        · exact Or.inr (Or.inl hx)
        · rcases ih x hx with hh | hh
          · exact Or.inl hh
          · exact Or.inr (Or.inr hh)

theorem insAssoc_pairwise {κ α : Type} (lt : κ → κ → Bool) [DecidableEq κ]
    (htrans : ∀ a b c, lt a b = true → lt b c = true → lt a c = true)
    (hconn : ∀ a b, lt a b = false → a ≠ b → lt b a = true)
    (k : κ) (v : α) : ∀ (l : List (κ × α)),
    ((l.map Prod.fst).Pairwise (fun a b => lt a b = true)) →
    (((insAssoc lt k v l).map Prod.fst).Pairwise (fun a b => lt a b = true)) := by
  intro l
  induction l with
  | nil =>
    intro hp
    simp [insAssoc]
  | cons p t ih =>
    intro hp
    simp only [List.map_cons, List.pairwise_cons] at hp
    obtain ⟨hhead, htail⟩ := hp
    unfold insAssoc
    by_cases h1 : lt k p.1
    · rw [if_pos h1]
      simp only [List.map_cons, List.pairwise_cons]
      refine ⟨?_, hhead, htail⟩
      intro x hx
      rcases List.mem_cons.mp hx with hx | hx
      · exact hx ▸ h1
      · exact htrans _ _ _ h1 (hhead x hx)
    · rw [if_neg h1]
      by_cases h2 : k = p.1
      · rw [if_pos h2]
        simp only [List.map_cons, List.pairwise_cons]
        refine ⟨?_, htail⟩
        intro x hx
        exact h2 ▸ hhead x hx
      · rw [if_neg h2]
        simp only [List.map_cons, List.pairwise_cons]
        refine ⟨?_, ih htail⟩
        intro x hx
        rcases insAssoc_fst_mem lt k v t x hx with hh | hh
        · rw [hh]
          exact hconn k p.1 (by simpa using h1) h2
        · exact hhead x hh

theorem commitCommon_maps (t : TranslatorInner) (r : TranslationResult) :
    (t.commitCommon r).translatedTypes = t.translatedTypes
    ∧ (t.commitCommon r).translatedVariables = t.translatedVariables
    ∧ (t.commitCommon r).translatedFunctions = t.translatedFunctions := by
  unfold TranslatorInner.commitCommon
  have aux : ∀ (items : List ParsedItem) (t0 : TranslatorInner),
      (items.foldl (fun t i =>
        match i.sort with
        | .type _ => { t with translatedTypeNames := insS i.name t.translatedTypeNames }
        | _ => { t with translatedTermNames := insS i.name t.translatedTermNames }) t0).translatedTypes
        = t0.translatedTypes
      ∧ (items.foldl (fun t i =>
        match i.sort with
        | .type _ => { t with translatedTypeNames := insS i.name t.translatedTypeNames }
        | _ => { t with translatedTermNames := insS i.name t.translatedTermNames }) t0).translatedVariables
        = t0.translatedVariables
      ∧ (items.foldl (fun t i =>
        match i.sort with
        | .type _ => { t with translatedTypeNames := insS i.name t.translatedTypeNames }
        | _ => { t with translatedTermNames := insS i.name t.translatedTermNames }) t0).translatedFunctions
        = t0.translatedFunctions := by
    intro items
    induction items with
    | nil => intro t0; exact ⟨rfl, rfl, rfl⟩
    | cons i rest ih =>
      intro t0
      simp only [List.foldl_cons]
      cases hs : i.sort with
      | type ti =>
        obtain ⟨h1, h2, h3⟩ := ih { t0 with translatedTypeNames := insS i.name t0.translatedTypeNames }
        exact ⟨h1, h2, h3⟩
      | var =>
        obtain ⟨h1, h2, h3⟩ := ih { t0 with translatedTermNames := insS i.name t0.translatedTermNames }
        exact ⟨h1, h2, h3⟩
      | func f =>
        obtain ⟨h1, h2, h3⟩ := ih { t0 with translatedTermNames := insS i.name t0.translatedTermNames }
        exact ⟨h1, h2, h3⟩
      | use =>
        obtain ⟨h1, h2, h3⟩ := ih { t0 with translatedTermNames := insS i.name t0.translatedTermNames }
        exact ⟨h1, h2, h3⟩
  exact ⟨(aux r.items t).1, (aux r.items t).2.1, (aux r.items t).2.2⟩

/-- C5 counterexample: committing variable b first and variable a second
yields an emitted string that lists a before b — key order, not insertion
order. -/
theorem C5_order_cex :
    TranslatorInner.code innerBA ≠ joinLines ["extern crate libc;", "extern crate once_cell;",
      "static B: i32 = 0;", "static A: i32 = 0;", "fn main() \x7b\x7d"]
    ∧ TranslatorInner.code innerBA = joinLines ["extern crate libc;", "extern crate once_cell;",
      "static A: i32 = 0;", "static B: i32 = 0;", "fn main() \x7b\x7d"] :=
  ⟨by decide, by decide⟩

/-- C5 (amended): the emitted string is the newline join of the use set,
the non-copied artifacts of each kind rendered in map order, and the empty
entry point; the commit operations keep every artifact map sorted strictly
by key, so map order is ascending key order rather than insertion order. -/
theorem C5_code_amended (t : TranslatorInner) (f : TranslationResult → String)
    (hs : SortedInner t) : C5Concl t f := by
  obtain ⟨hty, hva, hfu⟩ := hs
  refine ⟨?_, ⟨List.Pairwise.nil, List.Pairwise.nil, List.Pairwise.nil⟩, ?_, ?_, ?_⟩
  · unfold TranslatorInner.mkCode
    simp [List.filter_append, List.map_append, List.append_assoc]
  · intro k r
    obtain ⟨m1, m2, m3⟩ := commitCommon_maps t r
    refine ⟨?_, ?_, ?_⟩
    · simp only [commitType, m1]
      exact insAssoc_pairwise ctLtB ctLtB_trans ctLtB_conn k r t.translatedTypes hty
    · simp only [commitType, m2]
      exact hva
    · simp only [commitType, m3]
      exact hfu
  · intro k r
    obtain ⟨m1, m2, m3⟩ := commitCommon_maps t r
    refine ⟨?_, ?_, ?_⟩
    · simp only [commitVariable, m1]
      exact hty
    · simp only [commitVariable, m2]
      exact insAssoc_pairwise strLtB strLtB_trans strLtB_conn k r t.translatedVariables hva
    · simp only [commitVariable, m3]
      exact hfu
  · intro k r
    obtain ⟨m1, m2, m3⟩ := commitCommon_maps t r
    refine ⟨?_, ?_, ?_⟩
    · simp only [commitFunction, m1]
      exact hty
    · simp only [commitFunction, m2]
      exact hva
    · simp only [commitFunction, m3]
      exact insAssoc_pairwise strLtB strLtB_trans strLtB_conn k r t.translatedFunctions hfu

/-- Witness for C5 at the initial state. -/
theorem C5_code_amended_witness : C5Concl initInner TranslationResult.code :=
  C5_code_amended initInner TranslationResult.code
    ⟨List.Pairwise.nil, List.Pairwise.nil, List.Pairwise.nil⟩

/-- C6 counterexample: for the empty program the scheduler does terminate
at once spawning nothing, but the emitted string is not just the empty
entry point — it begins with the two extern crate lines inserted by
Translator::new. -/
theorem C6_empty_cex :
    TranslatorInner.code initInner ≠ "fn main() \x7b\x7d"
    ∧ schedulerRun (α := String) (fun _ _ => resAbort) commitVariable [] 1 [] [] [] initInner 0
        = Except.ok (some (initInner, 0))
    ∧ TranslatorInner.code initInner
        = joinLines ["extern crate libc;", "extern crate once_cell;", "fn main() \x7b\x7d"] :=
  ⟨by decide, by decide, by decide⟩

/-- C6 (amended): on an empty dependency graph every scheduler loop stops
in its first iteration without spawning a task or touching the state, and
the emitted string for the initial state is the two extern crate use lines
followed by the empty entry point. -/
theorem C6_empty_amended :
    (∀ (task : CustomType → TranslatorInner → Res TranslationResult)
        (commit : CustomType → TranslationResult → TranslatorInner → TranslatorInner)
        (elemMap : List (Nat × List CustomType)) (fuel : Nat) (schedule : List Nat)
        (inner : TranslatorInner) (spawned : Nat),
      schedulerRun task commit elemMap (fuel + 1) schedule [] [] inner spawned
        = Except.ok (some (inner, spawned)))
    ∧ (∀ (task : String → TranslatorInner → Res TranslationResult)
        (commit : String → TranslationResult → TranslatorInner → TranslatorInner)
        (elemMap : List (Nat × List String)) (fuel : Nat) (schedule : List Nat)
        (inner : TranslatorInner) (spawned : Nat),
      schedulerRun task commit elemMap (fuel + 1) schedule [] [] inner spawned
        = Except.ok (some (inner, spawned)))
    ∧ TranslatorInner.code initInner
        = joinLines ["extern crate libc;", "extern crate once_cell;", "fn main() \x7b\x7d"] :=
  ⟨fun _ _ _ _ _ _ _ => rfl, fun _ _ _ _ _ _ _ => rfl, by decide⟩

theorem entryOrInsert_nodup (m : List (SigTy × String)) (k : SigTy) (v : String)
    (h : (m.map Prod.fst).Nodup) : ((entryOrInsert m k v).map Prod.fst).Nodup := by
  unfold entryOrInsert
  by_cases hany : m.any (fun p => p.1 == k)
  · rw [if_pos hany]
    exact h
  · rw [if_neg hany]
    rw [List.map_append]
    rw [List.nodup_append]
    refine ⟨h, List.nodup_singleton k, ?_⟩
    intro x hx hk
    simp only [List.map_cons, List.map_nil, List.mem_singleton] at hk
    subst hk
    rw [List.mem_map] at hx
    obtain ⟨p, hp, hpx⟩ := hx
    apply hany
    rw [List.any_eq_true]
    exact ⟨p, hp, by simp [hpx]⟩

theorem processSig_nodup (O : Oracle) (nn : String) (m : List (SigTy × String))
    (sig : String) (m1 : List (SigTy × String)) (h : (m.map Prod.fst).Nodup)
    (hp : processSig O nn m sig = Except.ok m1) : (m1.map Prod.fst).Nodup := by
  unfold processSig at hp
  by_cases h1 : (String.mk (removeArrows sig.data)).data.count '<'
      ≠ (String.mk (removeArrows sig.data)).data.count '>'
  · rw [if_pos h1] at hp
    injection hp with hp
    subst hp
    exact h
  · rw [if_neg h1] at hp
    cases hparse : O.parse (sig ++ "\x7b\x7d") with
    | none =>
      rw [hparse] at hp
      injection hp with hp
      subst hp
      exact h
    | some items =>
      rw [hparse] at hp
      match items with
      | [] => exact absurd hp (by simp [resAbort])
      | [item] =>
        have hp2 : (if item.name = nn then
            (match item.sort with
             | ItemSort.func f =>
               Except.ok (entryOrInsert m f.normalizedSignatureTy f.normalizedSignature)
             | _ => resAbort)
          else resAbort) = Except.ok m1 := hp
        by_cases hname : item.name = nn
        · rw [if_pos hname] at hp2
          cases hsort : item.sort with
          | func f =>
            rw [hsort] at hp2
            injection hp2 with hp2
            subst hp2
            exact entryOrInsert_nodup m _ _ h
          | type t =>
            rw [hsort] at hp2
            exact absurd hp2 (by simp [resAbort])
          | var =>
            rw [hsort] at hp2
            exact absurd hp2 (by simp [resAbort])
          | use =>
            rw [hsort] at hp2
            exact absurd hp2 (by simp [resAbort])
        · rw [if_neg hname] at hp2
          exact absurd hp2 (by simp [resAbort])
      | a :: b :: rest => exact absurd hp (by simp [resAbort])

theorem buildSigMap_nodup (O : Oracle) (nn : String) :
    ∀ (sigs : List String) (m m1 : List (SigTy × String)), (m.map Prod.fst).Nodup →
      List.foldlM (processSig O nn) m sigs = Except.ok m1 → (m1.map Prod.fst).Nodup := by
  intro sigs
  induction sigs with
  | nil =>
    intro m m1 h hf
    simp only [List.foldlM_nil, pure, Except.pure] at hf
    injection hf with hf
    subst hf
    exact h
  | cons s rest ih =>
    intro m m1 h hf
    rw [List.foldlM_cons] at hf
    obtain ⟨mid, hmid, hrest⟩ := resBindOk hf
    exact ih mid m1 (processSig_nodup O nn m s mid h hmid) hrest

/-- C7: in the signature phase, a returned line whose angle brackets (with
return arrows removed) are unbalanced contributes nothing to the signature
map; the map keeps at most one representative per normalized shape; and
when any kept shape has at most the original C parameter count, the arity
filter retains only such shapes. -/
theorem C7_signature_phase (O : Oracle) (nn : String) (sigs : List String)
    (m : List (SigTy × String)) (pl : Nat)
    (h : buildSigMap O nn sigs = Except.ok m) : C7Concl O nn m pl := by
  refine ⟨?_, ?_, ?_⟩
  · intro acc sig hneq
    unfold processSig
    have h2 : (String.mk (removeArrows sig.data)).data.count '<'
        ≠ (String.mk (removeArrows sig.data)).data.count '>' := hneq
    rw [if_pos h2]
  · exact buildSigMap_nodup O nn sigs [] m (by simp) h
  · intro hex p hp
    unfold filterSigsByArity at hp
    have hany : m.any (fun p => decide (p.1.params.length ≤ pl)) = true := by
      obtain ⟨q, hq, hql⟩ := hex
      rw [List.any_eq_true]
      exact ⟨q, hq, by simpa using hql⟩
    rw [if_pos hany] at hp
    have hm := (List.mem_filter.mp hp).2
    simpa using hm

/-- Witness for C7 on a concrete one-signature run. -/
theorem C7_signature_phase_witness :
    C7Concl oracleC7 "f" [({ params := [], ret := "unit" }, "fn f()")] 0 :=
  C7_signature_phase oracleC7 "f" ["fn f()"] [({ params := [], ret := "unit" }, "fn f()")] 0
    (by decide)

theorem check_prov (O : Oracle) (c c1 : FixContext)
    (h : FixContext.check O c = Except.ok c1) : c1.uses = c.uses ∧ RProv O c1 := by
  unfold FixContext.check at h
  cases ht : O.typeCheck c.fullCode with
  | none =>
    rw [ht] at h
    injection h with h
    subst h
    refine ⟨rfl, ?_⟩
    intro res hres
    exact absurd hres (by simp)
  | some res =>
    rw [ht] at h
    have h9 : (if ∀ e ∈ res.errors, c.prefixLines < e.line then
        Except.ok ({ c with result := some res } : FixContext) else resAbort)
        = Except.ok c1 := h
    by_cases hall : ∀ e ∈ res.errors, c.prefixLines < e.line
    · rw [if_pos hall] at h9
      injection h9 with h9
      subst h9
      refine ⟨rfl, ?_⟩
      intro res2 hres2 u hu
      have h5 : some res = some res2 := hres2
      injection h5 with h5
      subst h5
      exact ⟨c.fullCode, res, ht, hu⟩
    · rw [if_neg hall] at h9
      simp [resAbort] at h9

theorem update_prov (O : Oracle) (c : FixContext) (code : String) (c1 : FixContext)
    (h : FixContext.update O c code = Except.ok c1) : c1.uses = c.uses ∧ RProv O c1 :=
  check_prov O { c with code := code } c1 h

theorem updateWhole_prov (O : Oracle) (c : FixContext) (whole : String) (c1 : FixContext)
    (h : FixContext.updateWhole O c whole = Except.ok c1) : c1.uses = c.uses ∧ RProv O c1 := by
  unfold FixContext.updateWhole at h
  cases hd : dropPre c.usesAndPrefix whole with
  | none =>
    rw [hd] at h
    simp [resAbort] at h
  | some rest =>
    rw [hd] at h
    have h8 : (match rest.data with
        | ch :: r => if ch = '\n' then FixContext.update O c ⟨r⟩ else resAbort
        | [] => resAbort) = Except.ok c1 := h
    cases hr : rest.data with
    | nil =>
      rw [hr] at h8
      simp [resAbort] at h8
    | cons ch tail =>
      rw [hr] at h8
      have h9 : (if ch = '\n' then FixContext.update O c ⟨tail⟩ else resAbort)
          = Except.ok c1 := h8
      by_cases hc : ch = '\n'
      · rw [if_pos hc] at h9
        exact update_prov O c _ c1 h9
      · rw [if_neg hc] at h9
        simp [resAbort] at h9

theorem fixBySuggestions_prov (O : Oracle) : ∀ (fuel : Nat) (c c1 : FixContext),
    fixBySuggestions O fuel c = Except.ok c1 →
    c1.uses = c.uses ∧ (RProv O c → RProv O c1) := by
  intro fuel
  induction fuel with
  | zero =>
    intro c c1 h
    injection h with h
    subst h
    exact ⟨rfl, id⟩
  | succ n ih =>
    intro c c1 h
    unfold fixBySuggestions at h
    cases hres : c.result with
    | none =>
      rw [hres] at h
      injection h with h
      subst h
      exact ⟨rfl, id⟩
    | some res =>
      rw [hres] at h
      have h9 : (if res.suggestions = [] then Except.ok c
          else
            match O.applySuggestions c.fullCode res.suggestions with
            | none => resAbort
            | some whole => do
              let cm ← FixContext.updateWhole O c whole
              fixBySuggestions O n cm) = Except.ok c1 := h
      by_cases hs : res.suggestions = []
      · rw [if_pos hs] at h9
        injection h9 with h9
        subst h9
        exact ⟨rfl, id⟩
      · rw [if_neg hs] at h9
        cases ha : O.applySuggestions c.fullCode res.suggestions with
        | none =>
          rw [ha] at h9
          simp [resAbort] at h9
        | some whole =>
          rw [ha] at h9
          obtain ⟨cmid, hmid, hrec⟩ := resBindOk h9
          obtain ⟨hu1, hr1⟩ := updateWhole_prov O c whole cmid hmid
          obtain ⟨hu2, hr2⟩ := ih cmid c1 hrec
          exact ⟨hu2.trans hu1, fun _ => hr2 hr1⟩

theorem addUseStep_prov (names : List String) (Q : String → Prop) :
    ∀ (l : List String) (acc acc1 : List String × Bool), (∀ u ∈ l, Q u) → (∀ u ∈ acc.1, Q u) →
      l.foldlM (addUseStep names) acc = Except.ok acc1 → ∀ u ∈ acc1.1, Q u := by
  intro l
  induction l with
  | nil =>
    intro acc acc1 hl hacc h
    simp only [List.foldlM_nil, pure, Except.pure] at h
    injection h with h
    subst h
    exact hacc
  | cons a rest ih =>
    intro acc acc1 hl hacc h
    rw [List.foldlM_cons] at h
    obtain ⟨mid, hmid, hrest⟩ := resBindOk h
    have hmidP : ∀ u ∈ mid.1, Q u := by
      unfold addUseStep at hmid
      by_cases hg : a.data.getLast? = some '*' || a.data.contains '\x7b'
      · rw [if_pos hg] at hmid
        injection hmid with e
        subst e
        exact hacc
      · rw [if_neg hg] at hmid
        cases htail : useTailName a with
        | none =>
          rw [htail] at hmid
          simp [resAbort] at hmid
        | some n =>
          rw [htail] at hmid
          have hmid2 : (if n ∈ names then Except.ok acc
              else if a ∈ acc.1 then Except.ok acc
              else Except.ok (insS a acc.1, true)) = Except.ok mid := hmid
          by_cases hn : n ∈ names
          · rw [if_pos hn] at hmid2
            injection hmid2 with e
            subst e
            exact hacc
          · rw [if_neg hn] at hmid2
            by_cases hu : a ∈ acc.1
            · rw [if_pos hu] at hmid2
              injection hmid2 with e
              subst e
              exact hacc
            · rw [if_neg hu] at hmid2
              injection hmid2 with e
              subst e
              intro u hu2
              rcases (insS_mem u a acc.1).mp hu2 with h5 | h5
              · exact h5 ▸ hl a (List.mem_cons_self _ _)
              · exact hacc u h5
    exact ih mid acc1 (fun u hu => hl u (List.mem_cons_of_mem _ hu)) hmidP hrest

theorem addUses_prov (O : Oracle) (c c1 : FixContext) (b : Bool) (hR : RProv O c)
    (h : FixContext.addUses O c = Except.ok (c1, b)) : UsesFrom O c c1 ∧ RProv O c1 := by
  unfold FixContext.addUses at h
  cases hres : c.result with
  | none =>
    rw [hres] at h
    simp [resAbort] at h
  | some res =>
    rw [hres] at h
    obtain ⟨acc, hacc, hrest⟩ := resBindOk h
    have haccP : ∀ u ∈ acc.1, u ∈ c.uses ∨ SuggestedBy O u := by
      apply addUseStep_prov (c.uses.filterMap useTailName)
        (fun u => u ∈ c.uses ∨ SuggestedBy O u) res.uses (c.uses, false) acc
      · intro u hu
        exact Or.inr (hR res hres u hu)
      · intro u hu
        exact Or.inl hu
      · exact hacc
    have hrest2 : (if acc.2 then do
          let c3 ← FixContext.check O
            { { c with result := some { res with uses := [] } } with uses := acc.1 }
          Except.ok (c3, true)
        else Except.ok ({ { c with result := some { res with uses := [] } } with uses := acc.1 },
          false)) = Except.ok (c1, b) := hrest
    by_cases hb : acc.2 = true
    · rw [if_pos hb] at hrest2
      obtain ⟨c3, hcheck, hout⟩ := resBindOk hrest2
      injection hout with hout
      have hc3 : c3 = c1 := congrArg Prod.fst hout
      subst hc3
      obtain ⟨hcu, hcR⟩ := check_prov O _ c3 hcheck
      refine ⟨?_, hcR⟩
      intro u hu
      rw [hcu] at hu
      exact haccP u hu
    · rw [if_neg hb] at hrest2
      injection hrest2 with hout
      have hc2 : ({ { c with result := some { res with uses := [] } } with uses := acc.1 }
          : FixContext) = c1 := congrArg Prod.fst hout
      refine ⟨?_, ?_⟩
      · intro u hu
        rw [← hc2] at hu
        exact haccP u hu
      · intro res2 hres2 u hu
        rw [← hc2] at hres2
        have h5 : some { res with uses := [] } = some res2 := hres2
        injection h5 with h5
        rw [← h5] at hu
        simp at hu

theorem usesFrom_trans (O : Oracle) (a b c : FixContext)
    (h1 : UsesFrom O a b) (h2 : UsesFrom O b c) : UsesFrom O a c := by
  intro u hu
  rcases h2 u hu with h | h
  · exact h1 u h
  · exact Or.inr h

theorem fixByCompilerLoop_prov (O : Oracle) (iF : Nat) : ∀ (fuel : Nat) (c c1 : FixContext),
    RProv O c → fixByCompilerLoop O iF fuel c = Except.ok c1 →
    UsesFrom O c c1 ∧ RProv O c1 := by
  intro fuel
  induction fuel with
  | zero =>
    intro c c1 hR h
    injection h with h
    subst h
    exact ⟨fun u hu => Or.inl hu, hR⟩
  | succ n ih =>
    intro c c1 hR h
    unfold fixByCompilerLoop at h
    cases hres : c.result with
    | none =>
      rw [hres] at h
      injection h with h
      subst h
      exact ⟨fun u hu => Or.inl hu, hR⟩
    | some res =>
      rw [hres] at h
      have h9 : (if res.uses = [] then Except.ok c
          else do
            let p ← FixContext.addUses O c
            if p.2 then do
              let cm ← fixBySuggestions O iF p.1
              fixByCompilerLoop O iF n cm
            else Except.ok p.1) = Except.ok c1 := h
      by_cases hu : res.uses = []
      · rw [if_pos hu] at h9
        injection h9 with h9
        subst h9
        exact ⟨fun u hu => Or.inl hu, hR⟩
      · rw [if_neg hu] at h9
        obtain ⟨p, hp, hrest⟩ := resBindOk h9
        obtain ⟨c2, b⟩ := p
        obtain ⟨hUF1, hR1⟩ := addUses_prov O c c2 b hR hp
        simp only at hrest
        by_cases hb : b = true
        · rw [if_pos hb] at hrest
          obtain ⟨c3, hsug, hloop⟩ := resBindOk hrest
          obtain ⟨hu3, hRimp⟩ := fixBySuggestions_prov O iF c2 c3 hsug
          have hR3 : RProv O c3 := hRimp hR1
          obtain ⟨hUF4, hR4⟩ := ih c3 c1 hR3 hloop
          refine ⟨?_, hR4⟩
          apply usesFrom_trans O c c3 c1 ?_ hUF4
          intro u hu2
          rw [hu3] at hu2
          exact hUF1 u hu2
        · rw [if_neg hb] at hrest
          injection hrest with hrest
          subst hrest
          exact ⟨hUF1, hR1⟩

theorem fixByCompiler_prov (O : Oracle) (iF : Nat) (c c1 : FixContext)
    (hR : RProv O c) (h : fixByCompiler O iF c = Except.ok c1) :
    UsesFrom O c c1 ∧ RProv O c1 := by
  unfold fixByCompiler at h
  obtain ⟨c2, hsug, hloop⟩ := resBindOk h
  obtain ⟨hu2, hRimp⟩ := fixBySuggestions_prov O iF c c2 hsug
  have hR2 : RProv O c2 := hRimp hR
  obtain ⟨hUF, hR3⟩ := fixByCompilerLoop_prov O iF iF c2 c1 hR2 hloop
  refine ⟨?_, hR3⟩
  apply usesFrom_trans O c c2 c1 ?_ hUF
  intro u hu
  rw [hu2] at hu
  exact Or.inl hu

theorem fixAttempt_prov (O : Oracle) (iF : Nat) (c : FixContext) (msg : String)
    (c1 : FixContext) (h : fixAttempt O iF c msg = Except.ok (some c1)) :
    UsesFrom O c c1 ∧ RProv O c1 := by
  unfold fixAttempt at h
  cases hfx : O.llmFix c.code msg with
  | none =>
    rw [hfx] at h
    injection h with h
    cases h
  | some fx =>
    rw [hfx] at h
    have h8 : (match O.parse fx with
        | none => Except.ok none
        | some items =>
          let fixedItems := List.filter (fun i => decide (i.name ∈ c.names)) items
          if c.names.length ≠ fixedItems.length then Except.ok none
          else
            let fxCode := TranslationResult.code
              { items := fixedItems, uses := [], errors := 0, copied := false,
                signatureOnly := false }
            if c.code = fxCode then Except.ok none
            else do
              let cm ← FixContext.update O c fxCode
              let cm2 ← fixByCompiler O iF cm
              Except.ok (some cm2)) = Except.ok (some c1) := h
    cases hparse : O.parse fx with
    | none =>
      rw [hparse] at h8
      injection h8 with h8
      cases h8
    | some items =>
      rw [hparse] at h8
      have h9 : (if c.names.length ≠ (items.filter (fun i => decide (i.name ∈ c.names))).length
          then Except.ok none
          else
            if c.code = TranslationResult.code
                { items := items.filter (fun i => decide (i.name ∈ c.names)), uses := [],
                  errors := 0, copied := false, signatureOnly := false }
            then Except.ok none
            else do
              let cm ← FixContext.update O c (TranslationResult.code
                { items := items.filter (fun i => decide (i.name ∈ c.names)), uses := [],
                  errors := 0, copied := false, signatureOnly := false })
              let cm2 ← fixByCompiler O iF cm
              Except.ok (some cm2)) = Except.ok (some c1) := h8
      by_cases hlen : c.names.length
          ≠ (items.filter (fun i => decide (i.name ∈ c.names))).length
      · rw [if_pos hlen] at h9
        injection h9 with h9
        cases h9
      · rw [if_neg hlen] at h9
        by_cases hcode : c.code = TranslationResult.code
            { items := items.filter (fun i => decide (i.name ∈ c.names)), uses := [],
              errors := 0, copied := false, signatureOnly := false }
        · rw [if_pos hcode] at h9
          injection h9 with h9
          cases h9
        · rw [if_neg hcode] at h9
          obtain ⟨cm, hup, hrest⟩ := resBindOk h9
          obtain ⟨cm2, hcomp, hout⟩ := resBindOk hrest
          injection hout with hout
          injection hout with hout
          obtain ⟨hu1, hR1⟩ := update_prov O c _ cm hup
          obtain ⟨hUF2, hR2⟩ := fixByCompiler_prov O iF cm cm2 hR1 hcomp
          subst hout
          refine ⟨?_, hR2⟩
          apply usesFrom_trans O c cm cm2 ?_ hUF2
          intro u hu
          rw [hu1] at hu
          exact Or.inl hu

theorem fixByLlmStep_cont_prov (O : Oracle) (iF : Nat) (c : FixContext)
    (failed : List String) (c1 : FixContext) (f1 : List String)
    (h : fixByLlmStep O iF c failed = Except.ok (StepRes.cont c1 f1)) :
    UsesFrom O c c1 ∧ RProv O c1 := by
  obtain ⟨res, results, k, m, hc, hres, hmin, hf1⟩ := fixByLlmStep_cont_inv O iF c failed c1 f1 h
  have hmem := minByKey_mem _ _ _ hmin
  rw [List.mem_filter] at hmem
  obtain ⟨htag, _⟩ := hmem
  unfold taggedOf at htag
  rw [List.mem_map] at htag
  obtain ⟨p, hpmem, hp⟩ := htag
  have hp1 : p.1 = some c1 := congrArg Prod.fst hp
  have hp2 : p.2 = m := congrArg (fun q => q.2.2) hp
  have hz := (mapM_ok_zip (fixAttempt O iF c) (msgsOf res failed) results hres).1 p hpmem
  rw [hp1] at hz
  exact fixAttempt_prov O iF c p.2 c1 hz

theorem fixByLlmAux_prov (O : Oracle) (iF : Nat) : ∀ (fuel : Nat) (c : FixContext)
    (failed : List String) (c1 : FixContext) (f1 : List String), RProv O c →
    fixByLlmAux O iF fuel c failed = Except.ok (some (c1, f1)) → UsesFrom O c c1 := by
  intro fuel
  induction fuel with
  | zero =>
    intro c failed c1 f1 hR h
    injection h with h
    cases h
  | succ n ih =>
    intro c failed c1 f1 hR h
    unfold fixByLlmAux at h
    cases hres : c.result with
    | none =>
      rw [hres] at h
      injection h with h
      injection h with h
      have hc : c = c1 := congrArg Prod.fst h
      subst hc
      exact fun u hu => Or.inl hu
    | some res =>
      rw [hres] at h
      have h8 : (if res.errors = [] then Except.ok (some (c, failed))
          else do
            let s ← fixByLlmStep O iF c failed
            match s with
            | StepRes.cont c2 f2 => fixByLlmAux O iF n c2 f2
            | StepRes.stop f2 => Except.ok (some (c, f2)))
          = Except.ok (some (c1, f1)) := h
      by_cases he : res.errors = []
      · rw [if_pos he] at h8
        injection h8 with h8
        injection h8 with h8
        have hc : c = c1 := congrArg Prod.fst h8
        subst hc
        exact fun u hu => Or.inl hu
      · rw [if_neg he] at h8
        obtain ⟨s, hstep, hrest⟩ := resBindOk h8
        cases s with
        | cont c2 f2 =>
          obtain ⟨hUF1, hR1⟩ := fixByLlmStep_cont_prov O iF c failed c2 f2 hstep
          exact usesFrom_trans O c c2 c1 hUF1 (ih c2 f2 c1 f1 hR1 hrest)
        | stop f2 =>
          simp only at hrest
          injection hrest with hrest
          injection hrest with hrest
          have hc : c = c1 := congrArg Prod.fst hrest
          subst hc
          exact fun u hu => Or.inl hu

theorem fixByLlm_prov (O : Oracle) (iF : Nat) (c c1 : FixContext) (hR : RProv O c)
    (h : fixByLlm O iF c = Except.ok c1) : UsesFrom O c c1 := by
  unfold fixByLlm at h
  obtain ⟨c2, hcomp, hrest⟩ := resBindOk h
  obtain ⟨hUF1, hR1⟩ := fixByCompiler_prov O iF c c2 hR hcomp
  obtain ⟨r, haux, hout⟩ := resBindOk hrest
  cases r with
  | none => simp [resAbort] at hout
  | some pr =>
    obtain ⟨c3, f3⟩ := pr
    simp only at hout
    injection hout with hout
    exact usesFrom_trans O c c2 c1 hUF1
      (hout ▸ fixByLlmAux_prov O iF _ c2 [] c3 f3 hR1 haux)

theorem new_prov (O : Oracle) (us : List String) (px cd : String) (nm : List String)
    (c : FixContext) (h : FixContext.new O us px cd nm = Except.ok c) :
    c.uses = us ∧ RProv O c :=
  check_prov O { uses := us, pfx := px, code := cd, names := nm, result := none } c h

theorem finalizeDerives_fields (O : Oracle) (fuel : Nat) (cp : String)
    (tr r : TranslationResult) (h : finalizeDerives O fuel cp tr = Except.ok r) :
    r.uses = tr.uses ∧ r.errors = tr.errors ∧ r.copied = tr.copied := by
  unfold finalizeDerives at h
  obtain ⟨⟨h1, h2, h3⟩, _⟩ := removeWrongDerives_shrink O fuel cp _ r h
  exact ⟨h1, h2, h3⟩

theorem translateTypeReparse_fields (O : Oracle) (itemNames : List String)
    (translatedCode c1code : String) (tr2 tr3 : TranslationResult)
    (h : translateTypeReparse O itemNames translatedCode c1code tr2 = Except.ok tr3) :
    tr3.uses = tr2.uses ∧ tr3.errors = tr2.errors ∧ tr3.copied = tr2.copied := by
  unfold translateTypeReparse at h
  by_cases heq : translatedCode = c1code
  · rw [if_pos heq] at h
    injection h with h
    subst h
    exact ⟨rfl, rfl, rfl⟩
  · rw [if_neg heq] at h
    cases hp : O.parse c1code with
    | none =>
      rw [hp] at h
      simp [resAbort] at h
    | some fixedItems =>
      rw [hp] at h
      have h8 : (if sortDedup (fixedItems.map (fun i => i.name)) = itemNames
          then Except.ok ({ tr2 with items := fixedItems } : TranslationResult)
          else resAbort) = Except.ok tr3 := h
      by_cases hn : sortDedup (fixedItems.map (fun i => i.name)) = itemNames
      · rw [if_pos hn] at h8
        injection h8 with h8
        subst h8
        exact ⟨rfl, rfl, rfl⟩
      · rw [if_neg hn] at h8
        simp [resAbort] at h8

theorem translateTypeFinish_main (O : Oracle) (dF : Nat) (cp : String)
    (itemNames : List String) (translatedCode : String) (tr1 : TranslationResult)
    (c1 : FixContext) (r : TranslationResult)
    (h : translateTypeFinish O dF cp itemNames translatedCode tr1 c1 = Except.ok r) :
    ∃ res, c1.result = some res ∧ res.passed = true
      ∧ r.errors = res.errors.length ∧ r.uses = c1.uses ∧ r.copied = tr1.copied := by
  unfold translateTypeFinish at h
  cases hcres : c1.result with
  | none =>
    rw [hcres] at h
    simp [resAbort] at h
  | some res =>
    rw [hcres] at h
    have h9 : (if res.passed then
        (translateTypeReparse O itemNames translatedCode c1.code
          { tr1 with uses := c1.uses, errors := res.errors.length } >>= finalizeDerives O dF cp)
        else resAbort) = Except.ok r := h
    by_cases hp : res.passed = true
    · rw [if_pos hp] at h9
      obtain ⟨tr3, hrep, hfin⟩ := resBindOk h9
      obtain ⟨hru, hre, hrc⟩ := finalizeDerives_fields O dF cp tr3 r hfin
      obtain ⟨h3u, h3e, h3c⟩ := translateTypeReparse_fields O itemNames translatedCode c1.code
        { tr1 with uses := c1.uses, errors := res.errors.length } tr3 hrep
      refine ⟨res, rfl, hp, ?_, ?_, ?_⟩
      · rw [hre, h3e]
      · rw [hru, h3u]
      · rw [hrc, h3c]
    · rw [if_neg (by simpa using hp)] at h9
      simp [resAbort] at h9

theorem translateTypePost_main (O : Oracle) (iF dF : Nat) (tyN teN : List String)
    (nn cp : String) (translated r : TranslationResult)
    (hnc : translated.copied = false)
    (h : translateTypePost O iF dF tyN teN nn cp translated = Except.ok r) :
    r.errors = 0 ∧ ∀ u ∈ r.uses, u ∈ translated.uses ∨ SuggestedBy O u := by
  unfold translateTypePost at h
  rw [if_neg (by simp [hnc])] at h
  obtain ⟨items0, hded, h2⟩ := resBindOk h
  obtain ⟨c0, hnew, h3⟩ := resBindOk h2
  obtain ⟨c1, hllm, h4⟩ := resBindOk h3
  obtain ⟨res, hcres, hp, hre, hru, _⟩ := translateTypeFinish_main O dF cp _ _ _ c1 r h4
  have herrs : res.errors = [] := by
    simpa [TypeCheckingResult.passed, List.isEmpty_iff] using hp
  constructor
  · rw [hre, herrs]
    rfl
  · obtain ⟨hc0u, hc0R⟩ := new_prov O _ cp _ _ c0 hnew
    have hUF := fixByLlm_prov O iF c0 c1 hc0R hllm
    intro u hu
    rw [hru] at hu
    rcases hUF u hu with h5 | h5
    · rw [hc0u] at h5
      exact Or.inl h5
    · exact Or.inr h5

/-- C9 counterexample: the initial shared state already holds the two
extern crate lines although, under a compiler oracle that answers nothing,
no line can pass the standalone probe — so membership in the use set is
not conditioned on an individual probe. -/
theorem C9_uses_cex :
    usePassesProbe oracleNoComp "extern crate libc;" = false
    ∧ "extern crate libc;" ∈ initInner.uses
    ∧ usePassesProbe oracleNoComp "extern crate once_cell;" = false
    ∧ "extern crate once_cell;" ∈ initInner.uses :=
  ⟨by decide, by decide, by decide, by decide⟩

/-- C9 (amended): the shared use set starts with the two extern crate
lines inserted by Translator::new, never individually probed; every use
line a type translation commits beyond its own initial set stems from a
compiler-suggested import collected during repair (add_uses), while the
take_uses probe results are discarded. -/
theorem C9_uses_amended (O : Oracle) (iF dF : Nat) (tyN teN : List String)
    (nn cp : String) (translated r : TranslationResult)
    (hu : translated.uses = [])
    (h : translateTypePost O iF dF tyN teN nn cp translated = Except.ok r) :
    initInner.uses = ["extern crate libc;", "extern crate once_cell;"]
    ∧ ∀ u ∈ r.uses, SuggestedBy O u := by
  refine ⟨by decide, ?_⟩
  by_cases hc : translated.copied = true
  · unfold translateTypePost at h
    rw [if_pos hc] at h
    injection h with h
    subst h
    intro u hu2
    rw [hu] at hu2
    simp at hu2
  · have hc2 : translated.copied = false := by
      revert hc
      cases translated.copied <;> simp
    obtain ⟨_, hprov⟩ := translateTypePost_main O iF dF tyN teN nn cp translated r hc2 h
    intro u hu2
    rcases hprov u hu2 with h5 | h5
    · rw [hu] at h5
      simp at h5
    · exact h5

/-- Witness for C9 on a concrete passing type translation. -/
theorem C9_uses_amended_witness :
    initInner.uses = ["extern crate libc;", "extern crate once_cell;"]
    ∧ ∀ u ∈ (TranslationResult.mk [ParsedItem.mk "S" (ItemSort.type (TypeInfo.mk TypeSort.strct ["Clone", "Copy", "Debug", "Default", "Eq", "Hash", "Ord", "PartialEq", "PartialOrd"])) "struct S;"] [] 0 false false).uses, SuggestedBy oraclePass u :=
  C9_uses_amended oraclePass 1 1 [] [] "S" "" trStruct _ rfl (by decide)

/-- C10: every non-copied translation result translate_type produces has
residual error count exactly zero, because the repair loop's final check
is asserted to pass and the error count is taken from that passing
result. -/
theorem C10_type_errors_zero (O : Oracle) (iF dF : Nat) (tyN teN : List String)
    (nn cp : String) (translated r : TranslationResult)
    (h : translateTypePost O iF dF tyN teN nn cp translated = Except.ok r)
    (hnc : r.copied = false) : r.errors = 0 := by
  by_cases hc : translated.copied = true
  · unfold translateTypePost at h
    rw [if_pos hc] at h
    injection h with h
    subst h
    exact absurd hc (by simp [hnc])
  · have hc2 : translated.copied = false := by
      revert hc
      cases translated.copied <;> simp
    exact (translateTypePost_main O iF dF tyN teN nn cp translated r hc2 h).1

/-- Witness for C10 on a concrete passing type translation. -/
theorem C10_type_errors_zero_witness :
    (TranslationResult.mk [ParsedItem.mk "S" (ItemSort.type (TypeInfo.mk TypeSort.strct ["Clone", "Copy", "Debug", "Default", "Eq", "Hash", "Ord", "PartialEq", "PartialOrd"])) "struct S;"] [] 0 false false).errors = 0 :=
  C10_type_errors_zero oraclePass 1 1 [] [] "S" "" trStruct _ (by decide) (by decide)
